import Mathlib

/-!
# downloadManager (main.go): classification, destination resolution, worker pool

A shallow embedding of `main.go`.

* Go maps are association lists; the order in which a `range` statement visits a
  map is a separate argument (`scan`), any permutation of the entries.
* `strings.ToLower` and `filepath.Join` are fields of `GoLib`; `filepath.Base`,
  `filepath.Ext` and `strings.TrimSuffix` are modelled for the Unix build
  (path separator `/`, no volume names).
* The operating system is a record `OS W` of the four calls the program makes
  (`os.Stat`, `os.Rename`, `os.MkdirAll`, `os.ReadDir`) over a world `W`.
* Go's `int` is 64 bits wide; the probe counter of `moveFile` wraps accordingly.
* The goroutines of `OrganizeFiles` are a transition system: one step is one
  channel operation, wait-group operation or system call of one goroutine.
-/

namespace DownloadManager

/-! ## Errors -/

/-- Error values of the program: an error of a system call (with its errno), and
the five errors built with `fmt.Errorf` in `main.go`. -/
inductive Error where
  | sys (errno : Nat)
  | failedGetHomeDirectory (cause : Error)
  | failedCreateDirectory (dir : String) (cause : Error)
  | failedReadDirectory (cause : Error)
  | failedMoveFile (name : String) (cause : Error)
  | failedToMove (errCount : Nat)
  deriving DecidableEq, Repr

/-- The errno of "no such file or directory". -/
def ENOENT : Nat := 2

/-- The errno of "permission denied". -/
def EACCES : Nat := 13

/-- Rendering of `os.IsNotExist(err)` for the error result of a system call: true
exactly for a non-nil error whose errno is ENOENT. -/
def IsNotExist : Option Error → Bool
  | some (Error.sys errno) => errno == ENOENT
  | _ => false

/-! ## Library functions -/

/-- The two library functions taken as given: `strings.ToLower` and
`filepath.Join`. -/
structure GoLib where
  ToLower : String → String
  Join : String → String → String

/-- A concrete library for evaluation: ASCII lower-casing, and joining with one
separator, which is what `filepath.Join` returns for a clean directory and a
plain file name. -/
def asciiLib : GoLib where
  ToLower := fun s => String.mk (s.data.map Char.toLower)
  Join := fun dir name => dir ++ "/" ++ name

/-- Rendering of `os.IsPathSeparator` on Unix. -/
def IsPathSeparator (c : Char) : Bool := c == '/'

/-- The loop of `filepath.Ext`: walk from the last character towards the first,
stop at a path separator, return the suffix starting at the first dot met.
`before` is the unread part, reversed; `after` is what has been walked over. -/
def extFrom : List Char → List Char → List Char
  | [], _ => []
  | c :: before, after =>
    if IsPathSeparator c then []
    else if c = '.' then c :: after
    else extFrom before (c :: after)

/-- Rendering of `filepath.Ext`. -/
def Ext (path : String) : String := String.mk (extFrom path.data.reverse [])

/-- Character-level body of `filepath.Base` on Unix. -/
def baseChars (path : List Char) : List Char :=
  if path = [] then ['.']
  else
    let stripped := (path.reverse.dropWhile IsPathSeparator).reverse
    let last := (stripped.reverse.takeWhile (fun c => !IsPathSeparator c)).reverse
    if last = [] then ['/'] else last

/-- Rendering of `filepath.Base`. -/
def Base (path : String) : String := String.mk (baseChars path.data)

/-- Rendering of `strings.TrimSuffix`. -/
def TrimSuffix (s suffix : String) : String :=
  if suffix.data.length ≤ s.data.length ∧
      s.data.drop (s.data.length - suffix.data.length) = suffix.data then
    String.mk (s.data.take (s.data.length - suffix.data.length))
  else s

/-- Rendering of `fmt.Sprintf("%s_%d%s", name, i, ext)`. -/
def Sprintf (name : String) (i : Int) (ext : String) : String :=
  name ++ "_" ++ toString i ++ ext

/-- Two's-complement wrap-around of a value into Go's 64-bit `int`. -/
def wrapInt (x : Int) : Int := (x + 2 ^ 63) % 2 ^ 64 - 2 ^ 63

/-! ## Configuration -/

/-- The `Config` struct. Both maps are association lists. -/
structure Config where
  parentDir : String
  directories : List (String × String)
  extensions : List (String × List String)

/-- Go's index expression `m[k]` on a `map[string]string`: the stored value, or
the zero value `""` when the key is absent. -/
def mapIndex (m : List (String × String)) (k : String) : String :=
  (m.lookup k).getD ""

/-- Rendering of `makeExtensionSet`: insert the lower-cased extensions one by one. -/
def makeExtensionSet (lib : GoLib) (extensions : List String) : List String :=
  extensions.foldl (fun set ext => set.insert (lib.ToLower ext)) []

/-- The extension literals of `NewConfig`, category by category, in source order. -/
def extensionLiterals : List (String × List String) := [
  ("audio", [
    ".3ga", ".aac", ".ac3", ".aif", ".aiff", ".alac", ".amr", ".ape", ".au", ".dss",
    ".flac", ".flv", ".m4a", ".m4b", ".m4p", ".mp3", ".mpga", ".ogg", ".oga", ".mogg",
    ".opus", ".qcp", ".tta", ".voc", ".wav", ".wma", ".wv", ".ra", ".mid", ".midi",
    ".pcm", ".aiff", ".aifc"]),
  ("video", [
    ".webm", ".mts", ".m2ts", ".ts", ".mov", ".mp4", ".m4p", ".m4v", ".mxf", ".avi",
    ".mkv", ".flv", ".wmv", ".rmvb", ".3gp", ".vob", ".ogv", ".3g2"]),
  ("image", [
    ".jpg", ".jpeg", ".jfif", ".pjpeg", ".pjp", ".png", ".gif", ".webp", ".svg", ".apng",
    ".avif", ".bmp", ".ico", ".tiff", ".tif", ".heif", ".heic", ".raw", ".nef", ".cr2",
    ".orf", ".sr2", ".arw", ".rw2", ".dng", ".eps"]),
  ("document", [
    ".doc", ".docx", ".log", ".msg", ".odt", ".pages", ".rtf", ".tex", ".txt", ".wpd",
    ".wps", ".indo", ".pct", ".pdf", ".xls", ".xlsx", ".csv", ".ppt", ".pptx", ".key",
    ".odp", ".ods", ".epub", ".mobi", ".ibooks", ".chm", ".xps"]),
  ("datafile", [
    ".csv", ".dat", ".ged", ".key", ".keychain", ".ppt", ".pptx", ".sdf", ".tar",
    ".tax2016", ".tax2020", ".tax2021", ".vcf", ".xml", ".zip", ".rar", ".7z", ".gz",
    ".bz2", ".xz", ".iso", ".cab", ".dmg", ".tgz", ".pkg", ".rpm", ".deb"]),
  ("executable", [
    ".bat", ".bin", ".cmd", ".com", ".cpl", ".ex_", ".exe", ".gadget", ".inf1", ".ins",
    ".inx", ".isu", ".job", ".jse", ".lnk", ".msc", ".msi", ".msp", ".mst", ".paf",
    ".pif", ".ps1", ".reg", ".rgs", ".scr", ".sct", ".shb", ".shs", ".ws", ".wsf",
    ".wsh", ".py", ".jar", ".app", ".apk", ".run", ".sh", ".command"])]

/-- Rendering of `NewConfig`; `homeDir` is the result of `os.UserHomeDir()`. Each
category of `extensionLiterals` is stored as `makeExtensionSet` of its literals. -/
def NewConfig (lib : GoLib) (homeDir : Except Error String) : Except Error Config :=
  match homeDir with
  | Except.error err => Except.error (Error.failedGetHomeDirectory err)
  | Except.ok homeDir =>
    let parentDir := lib.Join homeDir "Downloads"
    Except.ok {
      parentDir := parentDir
      directories := [
        ("audio", lib.Join parentDir "Audios"),
        ("video", lib.Join parentDir "Videos"),
        ("image", lib.Join parentDir "Images"),
        ("document", lib.Join parentDir "Documents"),
        ("datafile", lib.Join parentDir "Datafiles"),
        ("executable", lib.Join parentDir "Executables"),
        ("other", lib.Join parentDir "Others")]
      extensions := extensionLiterals.map
        (fun entry => (entry.1, makeExtensionSet lib entry.2)) }

/-! ## Classification -/

/-- The `range` loop of `getFileCategoryDir` over the categories in the order
`scan`: the directory of the first category whose set holds `ext`, if any. -/
def scanCategories (directories : List (String × String)) (ext : String) :
    List (String × List String) → Option String
  | [] => none
  | (category, extensions) :: rest =>
    if ext ∈ extensions then some (mapIndex directories category)
    else scanCategories directories ext rest

/-- Rendering of `FileOrganizer.getFileCategoryDir`; `scan` is the order in which
the `range` statement visits `cfg.extensions`. -/
def getFileCategoryDir (lib : GoLib) (cfg : Config) (scan : List (String × List String))
    (ext : String) : String :=
  let ext := lib.ToLower ext
  match scanCategories cfg.directories ext scan with
  | some dir => dir
  | none => mapIndex cfg.directories "other"

/-! ## The operating system -/

/-- One entry of a directory listing (`os.DirEntry`): its name and `IsDir()`. -/
structure DirEntry where
  Name : String
  IsDir : Bool
  deriving DecidableEq, Repr

/-- The system calls of the program over a world `W`. `Stat` gives the error
result of `os.Stat` (`none` is `nil`). -/
structure OS (W : Type) where
  Stat : W → String → Option Error
  Rename : W → String → String → Option Error × W
  MkdirAll : W → String → Option Error × W
  ReadDir : W → String → Except Error (List DirEntry)

/-! ## moveFile -/

/-- The probe loop of `moveFile` (`for i := 1; ; i++`), started at counter `i`:
the first candidate whose check reports not-found. `fuel` bounds the number of
iterations; `none` means the bound was reached. -/
def probe (lib : GoLib) (stat : String → Option Error) (destinationDir name ext : String) :
    Nat → Int → Option String
  | 0, _ => none
  | fuel + 1, i =>
    let newName := Sprintf name i ext
    let destination := lib.Join destinationDir newName
    if IsNotExist (stat destination) then some destination
    else probe lib stat destinationDir name ext fuel (wrapInt (i + 1))

/-- Lines 115 to 131 of `moveFile`: the destination that is handed to `os.Rename`. -/
def moveFileDestination (lib : GoLib) (cfg : Config) (scan : List (String × List String))
    (stat : String → Option Error) (fuel : Nat) (file : String) : Option String :=
  let ext := lib.ToLower (Ext file)
  let destinationDir := getFileCategoryDir lib cfg scan ext
  let destination := lib.Join destinationDir (Base file)
  if stat destination = none then
    let base := Base file
    let ext := Ext base
    let name := TrimSuffix base ext
    probe lib stat destinationDir name ext fuel 1
  else some destination

/-- Rendering of `FileOrganizer.moveFile`: the error of `os.Rename(file, destination)`
and the world after it; `none` when the probe loop did not end within `fuel`. -/
def moveFile {W : Type} (os : OS W) (lib : GoLib) (cfg : Config)
    (scan : List (String × List String)) (fuel : Nat) (w : W) (file : String) :
    Option (Option Error × W) :=
  (moveFileDestination lib cfg scan (os.Stat w) fuel file).map (os.Rename w file)

/-- The directory `moveFile` picks for `file` (lines 115 and 116). -/
def destinationDirOf (lib : GoLib) (cfg : Config) (scan : List (String × List String))
    (file : String) : String :=
  getFileCategoryDir lib cfg scan (lib.ToLower (Ext file))

/-- The first destination `moveFile` checks (line 117). -/
def firstDestination (lib : GoLib) (cfg : Config) (scan : List (String × List String))
    (file : String) : String :=
  lib.Join (destinationDirOf lib cfg scan file) (Base file)

/-- The destination `moveFile` checks in the probe loop when its counter is `i`
(lines 120 to 126). -/
def candidate (lib : GoLib) (cfg : Config) (scan : List (String × List String))
    (file : String) (i : Int) : String :=
  lib.Join (destinationDirOf lib cfg scan file)
    (Sprintf (TrimSuffix (Base file) (Ext (Base file))) i (Ext (Base file)))

/-- The value of the probe counter `n` iterations after it had the value `i`. -/
def counterAfter (n : Nat) (i : Int) : Int := (fun x => wrapInt (x + 1))^[n] i

/-! ## OrganizeFiles: the sequential part -/

/-- What a run does to the outside, in order of occurrence. -/
inductive Event where
  | mkdirAll (dir : String) (err : Option Error)
  | readDir (dir : String) (err : Option Error)
  | moveFileCall (file : String)
  | stat (path : String) (err : Option Error)
  | rename (src dst : String) (err : Option Error)
  | moveFileReturn (file : String) (err : Option Error)
  | logged (err : Error)
  deriving DecidableEq, Repr

/-- What is fixed during one run of `OrganizeFiles`: the system, the library, the
configuration, the order in which `createDirectories` ranges over
`cfg.directories`, and the order in which the `moveFile` call on a given file
ranges over `cfg.extensions`. -/
structure Env (W : Type) where
  os : OS W
  lib : GoLib
  cfg : Config
  dirScan : List (String × String)
  extScan : String → List (String × List String)

/-- Rendering of `FileOrganizer.createDirectories` over the directories in the
order given: the error returned, the world and the events afterwards. -/
def createDirectories {W : Type} (os : OS W) :
    List (String × String) → W → List Event → Option Error × W × List Event
  | [], w, trace => (none, w, trace)
  | (_, dir) :: rest, w, trace =>
    match os.MkdirAll w dir with
    | (some err, w') =>
      (some (Error.failedCreateDirectory dir err), w', trace ++ [Event.mkdirAll dir (some err)])
    | (none, w') => createDirectories os rest w' (trace ++ [Event.mkdirAll dir none])

/-! ## OrganizeFiles: the goroutines -/

/-- The constant `maxWorkers`. -/
def maxWorkers : Nat := 5

/-- Where a worker goroutine (the `go func(f os.DirEntry)` of line 160) stands.
* `start`: created, nothing executed yet;
* `statFirst`: inside `moveFile`, before the `os.Stat` of line 119;
* `probing i`: inside `moveFile`, before the `os.Stat` of line 127 with counter `i`;
* `renaming destination`: inside `moveFile`, before the `os.Rename` of line 133;
* `returned err`: `moveFile` has returned `err`, before the send of line 166;
* `releasing`: before the deferred `<-semaphore`;
* `finishing`: before the deferred `wg.Done()`;
* `done`: finished. -/
inductive WorkerPc where
  | start
  | statFirst
  | probing (i : Int)
  | renaming (destination : String)
  | returned (err : Option Error)
  | releasing
  | finishing
  | done
  deriving DecidableEq, Repr

/-- A worker goroutine: its argument `f` and where it stands. -/
structure Worker where
  f : DirEntry
  pc : WorkerPc
  deriving DecidableEq, Repr

/-- Where the goroutine running `OrganizeFiles` stands.
* `ranging rest`: at the head of the loop of line 152, `rest` still to visit;
* `acquiring f rest`: after `wg.Add(1)`, before the send `semaphore <- struct{}{}`;
* `waiting`: at `wg.Wait()`;
* `returned err`: `OrganizeFiles` has returned `err`. -/
inductive MainPc where
  | ranging (rest : List DirEntry)
  | acquiring (f : DirEntry) (rest : List DirEntry)
  | waiting
  | returned (err : Option Error)
  deriving DecidableEq, Repr

/-- The state of a run: the world, the local variables of `OrganizeFiles` shared
with the workers (`files`, the `wg` counter, the contents of the channels
`errors` and `semaphore`), the goroutines, and the events so far. -/
structure State (W : Type) where
  world : W
  files : List DirEntry
  main : MainPc
  workers : List Worker
  semaphore : Nat
  wg : Nat
  errors : List Error
  trace : List Event

/-- Lines 137 to 150 of `OrganizeFiles`: create the directories, list the source
directory, set up the wait group and the channels. A failure of either call makes
`OrganizeFiles` return at once. -/
def organizeStart {W : Type} (env : Env W) (w : W) : State W :=
  match createDirectories env.os env.dirScan w [] with
  | (some err, w', trace) =>
    { world := w', files := [], main := MainPc.returned (some err), workers := [],
      semaphore := 0, wg := 0, errors := [], trace := trace }
  | (none, w', trace) =>
    match env.os.ReadDir w' env.cfg.parentDir with
    | Except.error err =>
      { world := w', files := [],
        main := MainPc.returned (some (Error.failedReadDirectory err)), workers := [],
        semaphore := 0, wg := 0, errors := [],
        trace := trace ++ [Event.readDir env.cfg.parentDir (some err)] }
    | Except.ok files =>
      { world := w', files := files, main := MainPc.ranging files, workers := [],
        semaphore := 0, wg := 0, errors := [],
        trace := trace ++ [Event.readDir env.cfg.parentDir none] }

/-- The argument of the `moveFile` call of the worker for entry `f` (line 164). -/
def filePath {W : Type} (env : Env W) (f : DirEntry) : String :=
  env.lib.Join env.cfg.parentDir f.Name

/-- The value `OrganizeFiles` returns after draining `errors` (lines 174 to 184). -/
def organizeResult (errCount : Nat) : Option Error :=
  if errCount > 0 then some (Error.failedToMove errCount) else none

/-- One step of the goroutine running `OrganizeFiles`; `none` when it is blocked
or has returned. The send on `semaphore` and the `go` statement after it are one
step; so are the return of `wg.Wait()`, `close(errors)`, the draining loop with
its logging, and the return. -/
def stepMain {W : Type} (s : State W) : Option (State W) :=
  match s.main with
  | MainPc.ranging [] => some { s with main := MainPc.waiting }
  | MainPc.ranging (f :: rest) =>
    if f.IsDir then some { s with main := MainPc.ranging rest }
    else some { s with wg := s.wg + 1, main := MainPc.acquiring f rest }
  | MainPc.acquiring f rest =>
    if s.semaphore < maxWorkers then
      some { s with semaphore := s.semaphore + 1,
                    workers := s.workers ++ [{ f := f, pc := WorkerPc.start }],
                    main := MainPc.ranging rest }
    else none
  | MainPc.waiting =>
    if s.wg = 0 then
      some { s with main := MainPc.returned (organizeResult s.errors.length),
                    errors := [],
                    trace := s.trace ++ s.errors.map Event.logged }
    else none
  | MainPc.returned _ => none

/-- One step of the worker with index `i`; `none` when there is no such worker, it
is blocked, or it is done. A step holds at most one system call or one operation
on a channel or on the wait group. -/
def stepWorker {W : Type} (env : Env W) (s : State W) (i : Nat) : Option (State W) :=
  match s.workers.get? i with
  | none => none
  | some wk =>
    let file := filePath env wk.f
    let scan := env.extScan file
    let goto := fun (pc : WorkerPc) => s.workers.set i { wk with pc := pc }
    match wk.pc with
    | WorkerPc.start =>
      some { s with workers := goto WorkerPc.statFirst,
                    trace := s.trace ++ [Event.moveFileCall file] }
    | WorkerPc.statFirst =>
      let destination := firstDestination env.lib env.cfg scan file
      let err := env.os.Stat s.world destination
      some { s with
        workers := goto (if err = none then WorkerPc.probing 1
                         else WorkerPc.renaming destination),
        trace := s.trace ++ [Event.stat destination err] }
    | WorkerPc.probing n =>
      let destination := candidate env.lib env.cfg scan file n
      let err := env.os.Stat s.world destination
      some { s with
        workers := goto (if IsNotExist err then WorkerPc.renaming destination
                         else WorkerPc.probing (wrapInt (n + 1))),
        trace := s.trace ++ [Event.stat destination err] }
    | WorkerPc.renaming destination =>
      let r := env.os.Rename s.world file destination
      some { s with
        world := r.2,
        workers := goto (WorkerPc.returned r.1),
        trace := s.trace ++ [Event.rename file destination r.1, Event.moveFileReturn file r.1] }
    | WorkerPc.returned none => some { s with workers := goto WorkerPc.releasing }
    | WorkerPc.returned (some err) =>
      if s.errors.length < s.files.length then
        some { s with workers := goto WorkerPc.releasing,
                      errors := s.errors ++ [Error.failedMoveFile wk.f.Name err] }
      else none
    | WorkerPc.releasing =>
      if 0 < s.semaphore then
        some { s with workers := goto WorkerPc.finishing, semaphore := s.semaphore - 1 }
      else none
    | WorkerPc.finishing =>
      some { s with workers := goto WorkerPc.done, wg := s.wg - 1 }
    | WorkerPc.done => none

/-- Who takes the next step. -/
inductive Choice where
  | main
  | worker (i : Nat)
  deriving DecidableEq, Repr

/-- One step of the run. -/
def step {W : Type} (env : Env W) (s : State W) : Choice → Option (State W)
  | Choice.main => stepMain s
  | Choice.worker i => stepWorker env s i

/-- The state after the steps of a schedule, taken in order from `s`; `none` when
one of them is not possible. -/
def run {W : Type} (env : Env W) (s : State W) : List Choice → Option (State W)
  | [] => some s
  | c :: schedule =>
    match step env s c with
    | none => none
    | some s' => run env s' schedule

/-- The states a run of `OrganizeFiles` started in world `w` can be in. -/
def Reachable {W : Type} (env : Env W) (w : W) (s : State W) : Prop :=
  ∃ schedule, run env (organizeStart env w) schedule = some s

/-! ## Observations on states and traces -/

/-- A worker holds a semaphore slot from its creation until its deferred receive. -/
def holdsSlot : WorkerPc → Bool
  | WorkerPc.finishing => false
  | WorkerPc.done => false
  | _ => true

/-- A worker is inside its `moveFile` call. -/
def inMoveFile : WorkerPc → Bool
  | WorkerPc.statFirst => true
  | WorkerPc.probing _ => true
  | WorkerPc.renaming _ => true
  | _ => false

/-- A worker has not yet called `wg.Done()`. -/
def alive : WorkerPc → Bool
  | WorkerPc.done => false
  | _ => true

/-- A worker has called `moveFile`. -/
def called : WorkerPc → Bool
  | WorkerPc.start => false
  | _ => true

/-- A worker whose `moveFile` call has returned. -/
def moved : WorkerPc → Bool
  | WorkerPc.returned _ => true
  | WorkerPc.releasing => true
  | WorkerPc.finishing => true
  | WorkerPc.done => true
  | _ => false

/-- A worker whose `moveFile` call failed and whose error is not yet sent. -/
def unsentFailure : WorkerPc → Bool
  | WorkerPc.returned (some _) => true
  | _ => false

/-- The number of `moveFile` calls in flight. -/
def inFlight {W : Type} (s : State W) : Nat :=
  s.workers.countP (fun wk => inMoveFile wk.pc)

/-- The entries the main goroutine has yet to hand to a worker. -/
def pending : MainPc → List DirEntry
  | MainPc.ranging rest => rest.filter (fun f => !f.IsDir)
  | MainPc.acquiring f rest => f :: rest.filter (fun f => !f.IsDir)
  | _ => []

/-- The arguments of the `moveFile` calls of a trace, in order. -/
def moveFileCalls (trace : List Event) : List String :=
  trace.filterMap (fun e => match e with
    | Event.moveFileCall file => some file
    | _ => none)

/-- The number of `moveFile` calls of a trace that returned an error. -/
def failedMoves (trace : List Event) : Nat :=
  trace.countP (fun e => match e with
    | Event.moveFileReturn _ (some _) => true
    | _ => false)

/-- The events of the workers: everything but directory creation, listing and
logging. -/
def workerEvent : Event → Bool
  | Event.mkdirAll _ _ => false
  | Event.readDir _ _ => false
  | Event.logged _ => false
  | _ => true

/-- The events of the sequential start: directory creation and listing. -/
def setupEvent : Event → Bool
  | Event.mkdirAll _ _ => true
  | Event.readDir _ _ => true
  | _ => false

/-- The directories listed in a trace, in order. -/
def listings (trace : List Event) : List String :=
  trace.filterMap (fun e => match e with
    | Event.readDir dir _ => some dir
    | _ => none)

/-- The names of the non-directory entries of the source directory in world `w`;
none when the listing fails. -/
def sourceFiles {W : Type} (env : Env W) (w : W) : List String :=
  match env.os.ReadDir w env.cfg.parentDir with
  | Except.ok files => (files.filter (fun f => !f.IsDir)).map (fun f => f.Name)
  | Except.error _ => []

/-- The paths `moveFile` can hand to the rename for `file`: its first destination
and its suffixed candidates. -/
def isDestination {W : Type} (env : Env W) (file dst : String) : Prop :=
  dst = firstDestination env.lib env.cfg (env.extScan file) file ∨
    ∃ i, dst = candidate env.lib env.cfg (env.extScan file) file i

/-- The state `s` with worker `k` replaced, in the world `w` and with the trace `t`. -/
def place {W : Type} (s : State W) (k : Nat) (wk : Worker) (w : W) (t : List Event) :
    State W :=
  { s with world := w, workers := s.workers.set k wk, trace := t }

/-! ## Invariants of a run -/

/-- The invariant of a run whose directory creation and listing succeeded. -/
structure Inv {W : Type} (env : Env W) (s : State W) : Prop where
  sem : s.semaphore = s.workers.countP (fun wk => holdsSlot wk.pc)
  semLe : s.semaphore ≤ maxWorkers
  wg : s.wg = s.workers.countP (fun wk => alive wk.pc) +
    (match s.main with
     | MainPc.acquiring _ _ => 1
     | _ => 0)
  dispatch : s.files.filter (fun f => !f.IsDir) = s.workers.map (fun wk => wk.f) ++ pending s.main
  calls : (moveFileCalls s.trace).Perm
    ((s.workers.filter (fun wk => called wk.pc)).map (fun wk => filePath env wk.f))
  failures : (∀ r, s.main ≠ MainPc.returned r) →
    failedMoves s.trace = s.errors.length + s.workers.countP (fun wk => unsentFailure wk.pc)
  result : ∀ r, s.main = MainPc.returned r →
    r = organizeResult (failedMoves s.trace) ∧ ∀ wk ∈ s.workers, wk.pc = WorkerPc.done
  reports : ∀ e ∈ s.errors, ∃ f ∈ s.workers.map (fun wk => wk.f), ∃ cause,
    e = Error.failedMoveFile f.Name cause
  logs : ∀ err, Event.logged err ∈ s.trace → ∃ f ∈ s.workers.map (fun wk => wk.f), ∃ cause,
    err = Error.failedMoveFile f.Name cause
  failedLe : failedMoves s.trace ≤ s.workers.countP (fun wk => moved wk.pc)

/-- What is known about the source directory during a run: a worker about to rename
has a destination computed by `moveFile`, and while no `moveFile` call has failed
every file still in the source directory is yet to be handed out or belongs to a
worker that has not renamed it yet. -/
structure Moving {W : Type} (env : Env W) (s : State W) : Prop where
  dests : ∀ wk ∈ s.workers, ∀ dst, wk.pc = WorkerPc.renaming dst →
    isDestination env (filePath env wk.f) dst
  left : failedMoves s.trace = 0 → ∀ x ∈ sourceFiles env s.world,
    x ∈ (pending s.main).map (fun f => f.Name) ∨
    x ∈ (s.workers.filter (fun wk => !moved wk.pc)).map (fun wk => wk.f.Name)

/-! ## The specification's naming scheme -/

/-- The extension of a base name in the words of the specification: the part of
the name from its last dot onward, empty when the name has no dot. -/
def specExt (base : String) : String :=
  if '.' ∈ base.data then
    String.mk ('.' :: (base.data.reverse.takeWhile (fun c => c ≠ '.')).reverse)
  else ""

/-- The stem of a base name in the words of the specification: the name with its
extension removed. -/
def specStem (base : String) : String :=
  String.mk (base.data.take (base.data.length - (specExt base).data.length))

/-- The name `stem_k.ext` of the specification. -/
def suffixedName (base : String) (k : Nat) : String :=
  specStem base ++ "_" ++ toString k ++ specExt base

/-! ## Concrete inputs -/

/-- A world for evaluation: the existing paths, each with its `IsDir` flag, and the
source paths whose rename is refused. -/
structure SimWorld where
  entries : List (String × Bool)
  denied : List String
  deriving DecidableEq, Repr

/-- System calls over `SimWorld`: a path exists when it is listed; a rename of a
refused or missing source fails and changes nothing, any other rename replaces the
source path by the destination; `MkdirAll` adds the directory when it is missing;
`ReadDir` lists the entries whose parent is the directory. -/
def simOS : OS SimWorld where
  Stat := fun w path =>
    if (w.entries.map Prod.fst).contains path then none else some (Error.sys ENOENT)
  Rename := fun w src dst =>
    if w.denied.contains src then (some (Error.sys EACCES), w)
    else
      match w.entries.find? (fun e => e.1 == src) with
      | none => (some (Error.sys ENOENT), w)
      | some e =>
        (none, { w with entries :=
          (w.entries.filter (fun x => x.1 != src && x.1 != dst)) ++ [(dst, e.2)] })
  MkdirAll := fun w dir =>
    if (w.entries.map Prod.fst).contains dir then (none, w)
    else (none, { w with entries := w.entries ++ [(dir, true)] })
  ReadDir := fun w dir =>
    Except.ok (w.entries.filterMap (fun e =>
      if e.1 = dir ++ "/" ++ Base e.1 then some { Name := Base e.1, IsDir := e.2 } else none))

/-- A world in which report.txt and report_1.txt are already in /dl/Documents and a
new report.txt sits in /dl. -/
def reportWorld : SimWorld where
  entries := [("/dl/Documents", true), ("/dl/Documents/report.txt", false),
    ("/dl/Documents/report_1.txt", false), ("/dl/report.txt", false)]
  denied := []

/-- An existence check that fails with "permission denied" on every path. -/
def deniedStat : String → Option Error := fun _ => some (Error.sys EACCES)

/-- An existence check under which /dl/Documents/a.txt exists, the check of
/dl/Documents/a_1.txt fails with "permission denied", and nothing else exists. -/
def skippingStat : String → Option Error := fun path =>
  if path = "/dl/Documents/a.txt" then none
  else if path = "/dl/Documents/a_1.txt" then some (Error.sys EACCES)
  else some (Error.sys ENOENT)

/-- Strings that lower-casing leaves alone: ASCII only, no upper-case letter. -/
def lowerAscii (s : String) : Bool := s.data.all (fun c => !c.isUpper && c.val < 128)

/-- A small configuration with an overlapping extension, for evaluation. -/
def sampleConfig : Config where
  parentDir := "/dl"
  directories := [("image", "/dl/Images"), ("document", "/dl/Documents"), ("other", "/dl/Others")]
  extensions := [("image", [".png", ".svg"]), ("document", [".txt", ".svg"])]

/-- A run over `SimWorld` with the sample configuration, both maps ranged over in
their written order. -/
def simEnv : Env SimWorld where
  os := simOS
  lib := asciiLib
  cfg := sampleConfig
  dirScan := sampleConfig.directories
  extScan := fun _ => sampleConfig.extensions

/-- A source directory with three files and a subdirectory; the rename of c.txt is
refused. -/
def mixedWorld : SimWorld where
  entries := [("/dl/a.txt", false), ("/dl/sub", true), ("/dl/b.png", false),
    ("/dl/c.txt", false)]
  denied := ["/dl/c.txt"]

/-- A complete schedule for `mixedWorld`: the main goroutine creates the three
workers, the workers run in turns, the main goroutine finishes. -/
def mixedSchedule : List Choice :=
  List.replicate 7 Choice.main ++
  [Choice.worker 0, Choice.worker 1, Choice.worker 2,
   Choice.worker 0, Choice.worker 1, Choice.worker 2,
   Choice.worker 0, Choice.worker 1, Choice.worker 2,
   Choice.worker 0, Choice.worker 1, Choice.worker 2,
   Choice.worker 0, Choice.worker 1, Choice.worker 2,
   Choice.worker 0, Choice.worker 1, Choice.worker 2] ++
  List.replicate 5 Choice.main

/-- The state `mixedSchedule` leads to. -/
def mixedFinal : State SimWorld :=
  (run simEnv (organizeStart simEnv mixedWorld) mixedSchedule).getD
    (organizeStart simEnv mixedWorld)

/-- A source directory with seven files. -/
def crowdedWorld : SimWorld where
  entries := [("/dl/f1.txt", false), ("/dl/f2.txt", false), ("/dl/f3.txt", false),
    ("/dl/f4.txt", false), ("/dl/f5.txt", false), ("/dl/f6.txt", false),
    ("/dl/f7.txt", false)]
  denied := []

/-- A schedule for `crowdedWorld`: five workers are created and call `moveFile`,
then the main goroutine reaches the send on the semaphore for the sixth file. -/
def crowdedSchedule : List Choice :=
  List.replicate 10 Choice.main ++
  [Choice.worker 0, Choice.worker 1, Choice.worker 2, Choice.worker 3, Choice.worker 4,
   Choice.main]

/-- The state `crowdedSchedule` leads to. -/
def crowdedState : State SimWorld :=
  (run simEnv (organizeStart simEnv crowdedWorld) crowdedSchedule).getD
    (organizeStart simEnv crowdedWorld)

/-- An empty source directory. -/
def emptyWorld : SimWorld where
  entries := []
  denied := []

/-- A system whose world is the listing of the source directory of `sampleConfig`:
no destination exists, every rename succeeds and takes the file out of the
listing, directory creation succeeds and changes nothing. -/
def quietOS : OS (List DirEntry) where
  Stat := fun _ _ => some (Error.sys ENOENT)
  Rename := fun w src _ =>
    (none, w.filter (fun e => asciiLib.Join sampleConfig.parentDir e.Name != src))
  MkdirAll := fun w _ => (none, w)
  ReadDir := fun w _ => Except.ok w

/-- A run over `quietOS` with the sample configuration. -/
def quietEnv : Env (List DirEntry) where
  os := quietOS
  lib := asciiLib
  cfg := sampleConfig
  dirScan := sampleConfig.directories
  extScan := fun _ => sampleConfig.extensions

/-- A complete schedule for `quietWorld`. -/
def quietSchedule : List Choice :=
  List.replicate 5 Choice.main ++ List.replicate 6 (Choice.worker 0) ++
  List.replicate 6 (Choice.worker 1) ++ List.replicate 2 Choice.main

/-- A source directory whose only file cannot be renamed. -/
def deniedWorld : SimWorld where
  entries := [("/dl/c.txt", false)]
  denied := ["/dl/c.txt"]

/-- A complete schedule for `deniedWorld`. -/
def deniedSchedule : List Choice :=
  List.replicate 2 Choice.main ++ List.replicate 6 (Choice.worker 0) ++
  List.replicate 5 Choice.main

/-- A listing with two files and a subdirectory. -/
def quietWorld : List DirEntry :=
  [{ Name := "a.txt", IsDir := false }, { Name := "sub", IsDir := true },
   { Name := "b.png", IsDir := false }]

/-- The state `quietSchedule` leads to from `quietWorld`. -/
def quietFinal : State (List DirEntry) :=
  (run quietEnv (organizeStart quietEnv quietWorld) quietSchedule).getD
    (organizeStart quietEnv quietWorld)

/-- The state `deniedSchedule` leads to from `deniedWorld`. -/
def deniedFinal : State SimWorld :=
  (run simEnv (organizeStart simEnv deniedWorld) deniedSchedule).getD
    (organizeStart simEnv deniedWorld)

/-- The state `deniedSchedule` leads to in a second run, started in the world the
first run ended in. -/
def deniedAgain : State SimWorld :=
  (run simEnv (organizeStart simEnv deniedFinal.world) deniedSchedule).getD
    (organizeStart simEnv deniedFinal.world)

/-! ## Classification: proofs -/

theorem scanCategories_skip (directories : List (String × String)) (ext : String)
    (pre rest : List (String × List String)) (hpre : ∀ e ∈ pre, ext ∉ e.2) :
    scanCategories directories ext (pre ++ rest) = scanCategories directories ext rest := by
  induction pre with
  | nil => rfl
  | cons e pre ih =>
    obtain ⟨category, extensions⟩ := e
    have hhead : ext ∉ extensions := hpre (category, extensions) (List.mem_cons_self _ _)
    have htail : ∀ e ∈ pre, ext ∉ e.2 := fun e he => hpre e (List.mem_cons_of_mem _ he)
    simp [scanCategories, hhead, ih htail]

theorem scanCategories_none (directories : List (String × String)) (ext : String)
    (scan : List (String × List String)) (hscan : ∀ e ∈ scan, ext ∉ e.2) :
    scanCategories directories ext scan = none := by
  have h := scanCategories_skip directories ext scan [] hscan
  simpa [scanCategories] using h

/-- C1. For a configuration with an "other" directory, any scan order of the
category map and any extension string, `getFileCategoryDir` returns the directory
of the first category in scan order whose set contains the lower-cased extension,
and the "other" directory when no set of the configuration contains it. -/
theorem getFileCategoryDir_first_match (lib : GoLib) (cfg : Config)
    (scan : List (String × List String)) (ext other : String)
    (hother : cfg.directories.lookup "other" = some other)
    (hscan : scan.Perm cfg.extensions) :
    (∀ pre category extensions post, scan = pre ++ (category, extensions) :: post →
        (∀ e ∈ pre, lib.ToLower ext ∉ e.2) → lib.ToLower ext ∈ extensions →
        getFileCategoryDir lib cfg scan ext = mapIndex cfg.directories category) ∧
    ((∀ e ∈ cfg.extensions, lib.ToLower ext ∉ e.2) →
        getFileCategoryDir lib cfg scan ext = other) := by
  constructor
  · intro pre category extensions post hsplit hpre hmem
    subst hsplit
    simp [getFileCategoryDir, scanCategories_skip _ _ _ _ hpre, scanCategories, hmem]
  · intro hnone
    have hnone' : ∀ e ∈ scan, lib.ToLower ext ∉ e.2 :=
      fun e he => hnone e (hscan.subset he)
    simp [getFileCategoryDir, scanCategories_none _ _ _ hnone', mapIndex, hother]

/-- Witness of C1 on `sampleConfig`, scanned in reverse, with a mixed-case extension. -/
theorem getFileCategoryDir_first_match_witness :
    getFileCategoryDir asciiLib sampleConfig sampleConfig.extensions.reverse ".SvG"
        = mapIndex sampleConfig.directories "document" ∧
    getFileCategoryDir asciiLib sampleConfig sampleConfig.extensions.reverse "" = "/dl/Others" :=
  have h := getFileCategoryDir_first_match asciiLib sampleConfig
    sampleConfig.extensions.reverse ".SvG" "/dl/Others" (by decide)
    (List.reverse_perm _)
  have h0 := getFileCategoryDir_first_match asciiLib sampleConfig
    sampleConfig.extensions.reverse "" "/dl/Others" (by decide)
    (List.reverse_perm _)
  ⟨h.1 [] "document" [".txt", ".svg"] [("image", [".png", ".svg"])] (by decide)
      (by decide) (by decide),
   h0.2 (by decide)⟩

theorem scanCategories_some (directories : List (String × String)) (ext dir : String)
    (scan : List (String × List String))
    (h : scanCategories directories ext scan = some dir) :
    ∃ e ∈ scan, ext ∈ e.2 ∧ dir = mapIndex directories e.1 := by
  induction scan with
  | nil => simp [scanCategories] at h
  | cons e scan ih =>
    obtain ⟨category, extensions⟩ := e
    by_cases hmem : ext ∈ extensions
    · simp [scanCategories, hmem] at h
      exact ⟨(category, extensions), List.mem_cons_self _ _, hmem, h.symm⟩
    · simp [scanCategories, hmem] at h
      obtain ⟨e, he, hext, hdir⟩ := ih h
      exact ⟨e, List.mem_cons_of_mem _ he, hext, hdir⟩

theorem scanCategories_ne_none (directories : List (String × String)) (ext : String)
    (scan : List (String × List String)) (e : String × List String) (he : e ∈ scan)
    (hext : ext ∈ e.2) : scanCategories directories ext scan ≠ none := by
  induction scan with
  | nil => simp at he
  | cons e' scan ih =>
    obtain ⟨category, extensions⟩ := e'
    by_cases hmem : ext ∈ extensions
    · simp [scanCategories, hmem]
    · simp only [scanCategories, hmem, if_false]
      rcases List.mem_cons.mp he with h | h
      · subst h
        exact absurd hext hmem
      · exact ih h

theorem mem_makeExtensionSet (lib : GoLib) (extensions : List String) (x : String) :
    x ∈ makeExtensionSet lib extensions ↔ ∃ e ∈ extensions, lib.ToLower e = x := by
  unfold makeExtensionSet
  have key : ∀ acc : List String,
      x ∈ extensions.foldl (fun set ext => set.insert (lib.ToLower ext)) acc ↔
        x ∈ acc ∨ ∃ e ∈ extensions, lib.ToLower e = x := by
    induction extensions with
    | nil => intro acc; simp
    | cons e extensions ih =>
      intro acc
      simp only [List.foldl_cons, ih, List.mem_insert_iff, List.mem_cons, exists_eq_or_imp]
      constructor
      · rintro ((h | h) | h)
        · exact Or.inr (Or.inl h.symm)
        · exact Or.inl h
        · exact Or.inr (Or.inr h)
      · rintro (h | h | h)
        · exact Or.inl (Or.inr h)
        · exact Or.inl (Or.inl h.symm)
        · exact Or.inr h
  simpa using key []

theorem extensionLiterals_lowerAscii :
    ∀ e ∈ extensionLiterals, ∀ x ∈ e.2, lowerAscii x = true := by
  decide

theorem extensionLiterals_csv :
    ∀ e ∈ extensionLiterals, ".csv" ∈ e.2 → e.1 = "document" ∨ e.1 = "datafile" := by
  decide

theorem asciiLib_lower_fixed (s : String) (h : lowerAscii s = true) :
    asciiLib.ToLower s = s := by
  have hchar : ∀ c : Char, c.isUpper = false → c.toLower = c := by
    intro c hc
    have hrange : ¬ (c.toNat ≥ 65 ∧ c.toNat ≤ 90) := by
      intro ⟨h1, h2⟩
      have hup : c.isUpper = true := by
        simp only [Char.isUpper, Bool.and_eq_true, decide_eq_true_eq, GE.ge, UInt32.le_def,
          Fin.le_def]
        exact ⟨h1, h2⟩
      rw [hc] at hup
      exact Bool.noConfusion hup
    simp only [Char.toLower, hrange, if_false]
  have hall : ∀ c ∈ s.data, c.toLower = c := by
    intro c hc
    have := List.all_eq_true.mp h c hc
    simp only [Bool.and_eq_true, Bool.not_eq_true', decide_eq_true_eq] at this
    exact hchar c this.1
  show String.mk (s.data.map Char.toLower) = s
  rw [List.map_congr_left hall]
  simp

theorem exists_scan_first (lib : GoLib) (cfg : Config) (ext : String)
    (e : String × List String) (he : e ∈ cfg.extensions) (hext : lib.ToLower ext ∈ e.2) :
    ∃ scan : List (String × List String), scan.Perm cfg.extensions ∧
      getFileCategoryDir lib cfg scan ext = mapIndex cfg.directories e.1 := by
  obtain ⟨l₁, l₂, hl⟩ := List.append_of_mem he
  refine ⟨e :: (l₁ ++ l₂), ?_, ?_⟩
  · rw [hl]
    exact List.perm_middle.symm
  · obtain ⟨category, extensions⟩ := e
    simp only at hext
    simp [getFileCategoryDir, scanCategories, hext]

/-- C10. In the configuration built by `NewConfig`, ".csv" belongs to both the
document and the datafile extension sets; some scan order of the category map
makes `getFileCategoryDir ".csv"` return the Documents directory, another one the
Datafiles directory, and no scan order makes it return anything else. -/
theorem NewConfig_csv_two_directories (lib : GoLib) (home : String) (cfg : Config)
    (hlow : ∀ s, lowerAscii s = true → lib.ToLower s = s)
    (hcfg : NewConfig lib (Except.ok home) = Except.ok cfg) :
    (∃ set, ("document", set) ∈ cfg.extensions ∧ ".csv" ∈ set) ∧
    (∃ set, ("datafile", set) ∈ cfg.extensions ∧ ".csv" ∈ set) ∧
    (∃ scan : List (String × List String), scan.Perm cfg.extensions ∧
        getFileCategoryDir lib cfg scan ".csv" = lib.Join cfg.parentDir "Documents") ∧
    (∃ scan : List (String × List String), scan.Perm cfg.extensions ∧
        getFileCategoryDir lib cfg scan ".csv" = lib.Join cfg.parentDir "Datafiles") ∧
    (∀ scan : List (String × List String), scan.Perm cfg.extensions →
        getFileCategoryDir lib cfg scan ".csv" = lib.Join cfg.parentDir "Documents" ∨
        getFileCategoryDir lib cfg scan ".csv" = lib.Join cfg.parentDir "Datafiles") := by
  simp only [NewConfig, Except.ok.injEq] at hcfg
  have hE : cfg.extensions =
      extensionLiterals.map (fun entry => (entry.1, makeExtensionSet lib entry.2)) := by
    subst hcfg; rfl
  have hDoc : mapIndex cfg.directories "document" = lib.Join cfg.parentDir "Documents" := by
    subst hcfg; rfl
  have hDat : mapIndex cfg.directories "datafile" = lib.Join cfg.parentDir "Datafiles" := by
    subst hcfg; rfl
  have hcsv : lib.ToLower ".csv" = ".csv" := hlow ".csv" (by decide)
  have hmem : ∀ l ∈ extensionLiterals, ∀ x, x ∈ makeExtensionSet lib l.2 ↔ x ∈ l.2 := by
    intro l hl x
    rw [mem_makeExtensionSet]
    constructor
    · rintro ⟨e, he, hx⟩
      rw [hlow e (extensionLiterals_lowerAscii l hl e he)] at hx
      exact hx ▸ he
    · intro hx
      exact ⟨x, hx, hlow x (extensionLiterals_lowerAscii l hl x hx)⟩
  have hdoc : ∃ l ∈ extensionLiterals, l.1 = "document" ∧ ".csv" ∈ l.2 := by decide
  have hdat : ∃ l ∈ extensionLiterals, l.1 = "datafile" ∧ ".csv" ∈ l.2 := by decide
  obtain ⟨ld, hld, hldn, hldc⟩ := hdoc
  obtain ⟨lf, hlf, hlfn, hlfc⟩ := hdat
  have hdoc' : (("document", makeExtensionSet lib ld.2) : String × List String) ∈
      cfg.extensions := by
    rw [hE]
    exact List.mem_map.mpr ⟨ld, hld, by rw [hldn]⟩
  have hdat' : (("datafile", makeExtensionSet lib lf.2) : String × List String) ∈
      cfg.extensions := by
    rw [hE]
    exact List.mem_map.mpr ⟨lf, hlf, by rw [hlfn]⟩
  have hdocc : ".csv" ∈ makeExtensionSet lib ld.2 := (hmem ld hld ".csv").mpr hldc
  have hdatc : ".csv" ∈ makeExtensionSet lib lf.2 := (hmem lf hlf ".csv").mpr hlfc
  refine ⟨⟨_, hdoc', hdocc⟩, ⟨_, hdat', hdatc⟩, ?_, ?_, ?_⟩
  · obtain ⟨scan, hperm, hres⟩ := exists_scan_first lib cfg ".csv"
      ("document", makeExtensionSet lib ld.2) hdoc' (by rw [hcsv]; exact hdocc)
    exact ⟨scan, hperm, hres.trans hDoc⟩
  · obtain ⟨scan, hperm, hres⟩ := exists_scan_first lib cfg ".csv"
      ("datafile", makeExtensionSet lib lf.2) hdat' (by rw [hcsv]; exact hdatc)
    exact ⟨scan, hperm, hres.trans hDat⟩
  · intro scan hperm
    have hne := scanCategories_ne_none cfg.directories ".csv" scan _
      (hperm.symm.subset hdoc') hdocc
    unfold getFileCategoryDir
    simp only [hcsv]
    cases hsc : scanCategories cfg.directories ".csv" scan with
    | none => exact absurd hsc hne
    | some dir =>
      obtain ⟨e, he, hext, hdir⟩ := scanCategories_some _ _ _ _ hsc
      have he' := hperm.subset he
      rw [hE] at he'
      obtain ⟨l, hl, hle⟩ := List.mem_map.mp he'
      subst hle
      have hcat := extensionLiterals_csv l hl ((hmem l hl ".csv").mp hext)
      simp only at hdir
      rcases hcat with hcat | hcat
      · left; rw [hdir, hcat]; exact hDoc
      · right; rw [hdir, hcat]; exact hDat

/-- Witness of C10 for the home directory "/home/u" and the ASCII library: the two
directories that can be returned are different paths. -/
theorem NewConfig_csv_two_directories_witness :
    ∃ cfg, NewConfig asciiLib (Except.ok "/home/u") = Except.ok cfg ∧
      (∃ scan : List (String × List String), scan.Perm cfg.extensions ∧
        getFileCategoryDir asciiLib cfg scan ".csv" = "/home/u/Downloads/Documents") ∧
      (∃ scan : List (String × List String), scan.Perm cfg.extensions ∧
        getFileCategoryDir asciiLib cfg scan ".csv" = "/home/u/Downloads/Datafiles") ∧
      "/home/u/Downloads/Documents" ≠ "/home/u/Downloads/Datafiles" := by
  refine ⟨_, rfl, ?_⟩
  have h := NewConfig_csv_two_directories asciiLib "/home/u" _ asciiLib_lower_fixed rfl
  exact ⟨h.2.2.1, h.2.2.2.1, by decide⟩

/-! ## moveFile: proofs -/

theorem wrapInt_of_lt (x : Int) (h0 : 0 ≤ x) (h1 : x < 2 ^ 63) : wrapInt x = x := by
  unfold wrapInt
  omega

theorem counterAfter_small (n : Nat) (i : Nat) (h : i + n < 2 ^ 63) :
    counterAfter n (i : Int) = ((i + n : Nat) : Int) := by
  induction n generalizing i with
  | zero => simp [counterAfter]
  | succ n ih =>
    have hstep : wrapInt ((i : Int) + 1) = ((i + 1 : Nat) : Int) := by
      rw [wrapInt_of_lt _ (by omega) (by push_cast at h ⊢; omega)]
      push_cast
      rfl
    have := ih (i + 1) (by omega)
    unfold counterAfter at this ⊢
    rw [Function.iterate_succ_apply, hstep, this]
    omega

theorem probe_finds (lib : GoLib) (stat : String → Option Error)
    (destinationDir name ext : String) (n : Nat) :
    ∀ (fuel : Nat) (i : Int), n < fuel →
      IsNotExist (stat (lib.Join destinationDir (Sprintf name (counterAfter n i) ext))) = true →
      (∀ m, m < n →
        IsNotExist (stat (lib.Join destinationDir (Sprintf name (counterAfter m i) ext)))
          = false) →
      probe lib stat destinationDir name ext fuel i
        = some (lib.Join destinationDir (Sprintf name (counterAfter n i) ext)) := by
  induction n with
  | zero =>
    intro fuel i hfuel hfree _
    obtain ⟨fuel, rfl⟩ : ∃ f, fuel = f + 1 := ⟨fuel - 1, by omega⟩
    simp only [counterAfter, Function.iterate_zero, id_eq] at hfree
    simp [probe, counterAfter, hfree]
  | succ n ih =>
    intro fuel i hfuel hfree hbusy
    obtain ⟨fuel, rfl⟩ : ∃ f, fuel = f + 1 := ⟨fuel - 1, by omega⟩
    have h0 := hbusy 0 (Nat.succ_pos n)
    simp only [counterAfter, Function.iterate_zero, id_eq] at h0
    have hshift : ∀ m, counterAfter (m + 1) i = counterAfter m (wrapInt (i + 1)) := by
      intro m
      simp [counterAfter, Function.iterate_succ_apply]
    simp only [probe, h0]
    rw [hshift n] at hfree ⊢
    refine ih fuel (wrapInt (i + 1)) (by omega) hfree ?_
    intro m hm
    rw [← hshift m]
    exact hbusy (m + 1) (by omega)

theorem probe_sound (lib : GoLib) (stat : String → Option Error)
    (destinationDir name ext : String) (fuel : Nat) :
    ∀ (i : Int) (p : String), probe lib stat destinationDir name ext fuel i = some p →
      ∃ n, n < fuel ∧
        p = lib.Join destinationDir (Sprintf name (counterAfter n i) ext) ∧
        IsNotExist (stat p) = true ∧
        ∀ m, m < n →
          IsNotExist (stat (lib.Join destinationDir (Sprintf name (counterAfter m i) ext)))
            = false := by
  induction fuel with
  | zero => intro i p h; simp [probe] at h
  | succ fuel ih =>
    intro i p h
    simp only [probe] at h
    by_cases hfree : IsNotExist (stat (lib.Join destinationDir (Sprintf name i ext))) = true
    · simp only [hfree, if_true, Option.some.injEq] at h
      refine ⟨0, Nat.succ_pos _, ?_, ?_, ?_⟩
      · simp [counterAfter, h]
      · rw [← h]; exact hfree
      · intro m hm; omega
    · simp only [hfree] at h
      obtain ⟨n, hn, hp, hpfree, hbusy⟩ := ih _ _ h
      have hshift : ∀ m, counterAfter (m + 1) i = counterAfter m (wrapInt (i + 1)) := by
        intro m
        simp [counterAfter, Function.iterate_succ_apply]
      refine ⟨n + 1, by omega, ?_, hpfree, ?_⟩
      · rw [hshift]; exact hp
      · intro m hm
        cases m with
        | zero => simpa [counterAfter] using hfree
        | succ m => rw [hshift]; exact hbusy m (by omega)

theorem moveFileDestination_collision (lib : GoLib) (cfg : Config)
    (scan : List (String × List String)) (stat : String → Option Error) (fuel : Nat)
    (file : String) (h : stat (firstDestination lib cfg scan file) = none) :
    moveFileDestination lib cfg scan stat fuel file =
      probe lib stat (destinationDirOf lib cfg scan file)
        (TrimSuffix (Base file) (Ext (Base file))) (Ext (Base file)) fuel 1 := by
  unfold firstDestination destinationDirOf at h
  simp [moveFileDestination, destinationDirOf, h]

theorem moveFileDestination_free (lib : GoLib) (cfg : Config)
    (scan : List (String × List String)) (stat : String → Option Error) (fuel : Nat)
    (file : String) (h : stat (firstDestination lib cfg scan file) ≠ none) :
    moveFileDestination lib cfg scan stat fuel file
      = some (firstDestination lib cfg scan file) := by
  unfold firstDestination destinationDirOf at h
  simp [moveFileDestination, firstDestination, destinationDirOf, h]

theorem extFrom_no_separator (r acc : List Char)
    (h : ∀ c ∈ r, IsPathSeparator c = false) :
    extFrom r acc =
      if '.' ∈ r then '.' :: ((r.takeWhile (fun c => c ≠ '.')).reverse ++ acc) else [] := by
  induction r generalizing acc with
  | nil => simp [extFrom]
  | cons c r ih =>
    have hc : IsPathSeparator c = false := h c (List.mem_cons_self _ _)
    have hr : ∀ x ∈ r, IsPathSeparator x = false := fun x hx => h x (List.mem_cons_of_mem _ hx)
    by_cases hdot : c = '.'
    · subst hdot
      simp [extFrom, hc]
    · have hdot' : ¬ ('.' = c) := fun e => hdot e.symm
      simp only [extFrom, hc, hdot, if_false, Bool.false_eq_true, ih _ hr, List.mem_cons,
        hdot', false_or]
      split
      · simp [List.takeWhile_cons, hdot]
      · rfl

theorem takeWhile_dot_split (r : List Char) (h : '.' ∈ r) :
    ∃ rest, r = r.takeWhile (fun c => c ≠ '.') ++ '.' :: rest := by
  induction r with
  | nil => simp at h
  | cons c r ih =>
    by_cases hdot : c = '.'
    · subst hdot
      exact ⟨r, by simp⟩
    · have hmem : '.' ∈ r := by
        rcases List.mem_cons.mp h with h | h
        · exact absurd h.symm hdot
        · exact h
      obtain ⟨rest, hrest⟩ := ih hmem
      refine ⟨rest, ?_⟩
      simp only [List.takeWhile_cons, ne_eq, hdot, not_false_eq_true, decide_True, if_true,
        List.cons_append]
      exact congrArg (List.cons c) hrest

theorem baseChars_shape (path : List Char) :
    baseChars path = ['/'] ∨ ∀ c ∈ baseChars path, IsPathSeparator c = false := by
  unfold baseChars
  split
  · right; decide
  · simp only
    split
    · left; rfl
    · right
      intro c hc
      rw [List.mem_reverse] at hc
      have := List.mem_takeWhile_imp hc
      simpa using this

/-- The spec-side extension of a character list. -/
theorem specExt_data (base : String) :
    (specExt base).data =
      if '.' ∈ base.data then
        '.' :: (base.data.reverse.takeWhile (fun c => c ≠ '.')).reverse
      else [] := by
  unfold specExt
  split <;> rfl

theorem ext_eq_specExt (base : String)
    (h : base.data = ['/'] ∨ ∀ c ∈ base.data, IsPathSeparator c = false) :
    Ext base = specExt base := by
  apply String.ext
  rw [specExt_data]
  show extFrom base.data.reverse [] = _
  rcases h with h | h
  · rw [h]; decide
  · rw [extFrom_no_separator _ _ (fun c hc => h c (List.mem_reverse.mp hc))]
    simp

theorem specExt_suffix (base : String) :
    ∃ stem : List Char, base.data = stem ++ (specExt base).data := by
  rw [specExt_data]
  split
  · rename_i hdot
    obtain ⟨rest, hrest⟩ := takeWhile_dot_split base.data.reverse (List.mem_reverse.mpr hdot)
    refine ⟨rest.reverse, ?_⟩
    have := congrArg List.reverse hrest
    simpa using this
  · exact ⟨base.data, by simp⟩

theorem trimSuffix_eq_specStem (base : String) :
    TrimSuffix base (specExt base) = specStem base := by
  obtain ⟨stem, hstem⟩ := specExt_suffix base
  have hlen : base.data.length = stem.length + (specExt base).data.length := by
    have := congrArg List.length hstem
    rwa [List.length_append] at this
  have hdrop : base.data.drop (base.data.length - (specExt base).data.length)
      = (specExt base).data := by
    have hsub : base.data.length - (specExt base).data.length = stem.length := by omega
    rw [hsub]
    conv_lhs => rw [hstem]
    exact List.drop_left _ _
  unfold TrimSuffix specStem
  rw [if_pos ⟨by omega, hdrop⟩]

theorem sprintf_nat (name ext : String) (k : Nat) :
    Sprintf name (k : Int) ext = name ++ "_" ++ toString k ++ ext := rfl

theorem candidate_eq_suffixedName (lib : GoLib) (cfg : Config)
    (scan : List (String × List String)) (file : String) (k : Nat) :
    candidate lib cfg scan file (k : Int)
      = lib.Join (destinationDirOf lib cfg scan file) (suffixedName (Base file) k) := by
  have hshape : (Base file).data = ['/'] ∨
      ∀ c ∈ (Base file).data, IsPathSeparator c = false := baseChars_shape file.data
  unfold candidate suffixedName
  rw [ext_eq_specExt _ hshape, trimSuffix_eq_specStem, sprintf_nat]

/-- C2. When the first destination `destinationDir/base` exists and `k` is the least
integer from 1 on whose name `stem_k.ext` is reported not-found (`k` within the
range of Go's `int`), `moveFile` hands `destinationDir/stem_k.ext` to the rename,
where `ext` is the part of `base` from its last dot onward and `stem` the rest. -/
theorem moveFile_collision_least_suffix {W : Type} (os : OS W) (lib : GoLib) (cfg : Config)
    (scan : List (String × List String)) (w : W) (file : String) (k fuel : Nat)
    (hk1 : 1 ≤ k) (hk : k < 2 ^ 63) (hfuel : k ≤ fuel)
    (hexists : os.Stat w (lib.Join (destinationDirOf lib cfg scan file) (Base file)) = none)
    (hfree : IsNotExist (os.Stat w (lib.Join (destinationDirOf lib cfg scan file)
        (suffixedName (Base file) k))) = true)
    (hleast : ∀ j, 1 ≤ j → j < k →
      IsNotExist (os.Stat w (lib.Join (destinationDirOf lib cfg scan file)
        (suffixedName (Base file) j))) = false) :
    moveFileDestination lib cfg scan (os.Stat w) fuel file =
      some (lib.Join (destinationDirOf lib cfg scan file) (suffixedName (Base file) k)) ∧
    moveFile os lib cfg scan fuel w file =
      some (os.Rename w file
        (lib.Join (destinationDirOf lib cfg scan file) (suffixedName (Base file) k))) := by
  have hcount : ∀ m, m < k → counterAfter m 1 = ((1 + m : Nat) : Int) := by
    intro m hm
    exact counterAfter_small m 1 (by omega)
  have hprobe := probe_finds lib (os.Stat w) (destinationDirOf lib cfg scan file)
    (TrimSuffix (Base file) (Ext (Base file))) (Ext (Base file)) (k - 1) fuel 1 (by omega)
  have hcand : ∀ i : Nat, lib.Join (destinationDirOf lib cfg scan file)
      (Sprintf (TrimSuffix (Base file) (Ext (Base file))) (i : Int) (Ext (Base file)))
      = lib.Join (destinationDirOf lib cfg scan file) (suffixedName (Base file) i) :=
    fun i => candidate_eq_suffixedName lib cfg scan file i
  rw [hcount (k - 1) (by omega), hcand] at hprobe
  have hk' : 1 + (k - 1) = k := by omega
  rw [hk'] at hprobe
  have hres := hprobe hfree (by
    intro m hm
    rw [hcount m (by omega), hcand]
    exact hleast (1 + m) (by omega) (by omega))
  have hdest : moveFileDestination lib cfg scan (os.Stat w) fuel file =
      some (lib.Join (destinationDirOf lib cfg scan file) (suffixedName (Base file) k)) := by
    rw [moveFileDestination_collision lib cfg scan (os.Stat w) fuel file hexists, hres]
  refine ⟨hdest, ?_⟩
  unfold moveFile
  rw [hdest]
  rfl

/-- Witness of C2: report.txt and report_1.txt present, report_2.txt absent. -/
theorem moveFile_collision_least_suffix_witness :
    moveFileDestination asciiLib sampleConfig sampleConfig.extensions (simOS.Stat reportWorld) 5
      "/dl/report.txt" = some "/dl/Documents/report_2.txt" ∧
    moveFile simOS asciiLib sampleConfig sampleConfig.extensions 5 reportWorld "/dl/report.txt"
      = some (simOS.Rename reportWorld "/dl/report.txt" "/dl/Documents/report_2.txt") :=
  moveFile_collision_least_suffix simOS asciiLib sampleConfig sampleConfig.extensions
    reportWorld "/dl/report.txt" 2 5 (by decide) (by norm_num) (by decide) (by decide)
    (by decide) (by
      intro j h1 h2
      have hj : j = 1 := by omega
      subst hj
      decide)

/-- C3. When the check of `destinationDir/base` returns an error (the path does not
exist), `moveFile` hands exactly `destinationDir/base` to the rename: the base name
is unchanged and no numeric suffix is inserted. -/
theorem moveFile_free_destination {W : Type} (os : OS W) (lib : GoLib) (cfg : Config)
    (scan : List (String × List String)) (w : W) (file : String) (fuel : Nat)
    (hfree : os.Stat w (lib.Join (destinationDirOf lib cfg scan file) (Base file)) ≠ none) :
    moveFileDestination lib cfg scan (os.Stat w) fuel file =
      some (lib.Join (destinationDirOf lib cfg scan file) (Base file)) ∧
    moveFile os lib cfg scan fuel w file =
      some (os.Rename w file
        (lib.Join (destinationDirOf lib cfg scan file) (Base file))) := by
  have hdest := moveFileDestination_free lib cfg scan (os.Stat w) fuel file hfree
  refine ⟨hdest, ?_⟩
  unfold moveFile
  rw [hdest]
  rfl

/-- Witness of C3: an upper-case extension is classified case-insensitively and the
name is kept as it is. -/
theorem moveFile_free_destination_witness :
    moveFileDestination asciiLib sampleConfig sampleConfig.extensions (simOS.Stat reportWorld) 0
      "/dl/Photo.PNG" = some "/dl/Images/Photo.PNG" ∧
    moveFile simOS asciiLib sampleConfig sampleConfig.extensions 0 reportWorld "/dl/Photo.PNG"
      = some (simOS.Rename reportWorld "/dl/Photo.PNG" "/dl/Images/Photo.PNG") :=
  moveFile_free_destination simOS asciiLib sampleConfig sampleConfig.extensions
    reportWorld "/dl/Photo.PNG" 0 (by decide)

/-- C9. The code at the failing input. While /dl/a.txt is moved, the check of the
first destination /dl/Documents/a.txt fails with "permission denied": the test
`err == nil` of line 119 lets `moveFile` hand that very path to the rename,
whatever the fuel, although its check did not report not-found. The test
`os.IsNotExist(err)` of line 127 does what the claim says: a suffixed candidate
whose check fails with "permission denied" is passed over for the next one. -/
theorem moveFile_first_check_takes_denied_destination :
    (∀ fuel, moveFileDestination asciiLib sampleConfig sampleConfig.extensions deniedStat fuel
      "/dl/a.txt" = some "/dl/Documents/a.txt") ∧
    deniedStat "/dl/Documents/a.txt" = some (Error.sys EACCES) ∧
    IsNotExist (deniedStat "/dl/Documents/a.txt") = false ∧
    skippingStat "/dl/Documents/a_1.txt" = some (Error.sys EACCES) ∧
    moveFileDestination asciiLib sampleConfig sampleConfig.extensions skippingStat 2
      "/dl/a.txt" = some "/dl/Documents/a_2.txt" ∧
    IsNotExist (skippingStat "/dl/Documents/a_2.txt") = true :=
  ⟨fun fuel => moveFileDestination_free asciiLib sampleConfig sampleConfig.extensions
      deniedStat fuel "/dl/a.txt" (by decide),
   by decide, by decide, by decide, by decide, by decide⟩

/-! ## The worker pool: invariants -/

theorem set_decompose {α : Type} (l : List α) (i : Nat) (a : α) (h : l.get? i = some a) :
    ∃ l₁ l₂, l = l₁ ++ a :: l₂ ∧ ∀ b, l.set i b = l₁ ++ b :: l₂ := by
  induction l generalizing i with
  | nil => simp at h
  | cons x l ih =>
    cases i with
    | zero =>
      simp only [List.get?_cons_zero, Option.some.injEq] at h
      subst h
      exact ⟨[], l, rfl, fun b => rfl⟩
    | succ i =>
      simp only [List.get?_cons_succ] at h
      obtain ⟨l₁, l₂, hl, hset⟩ := ih i h
      refine ⟨x :: l₁, l₂, by rw [hl]; rfl, fun b => ?_⟩
      simp [List.set, hset b]

theorem countP_alive_zero (workers : List Worker)
    (h : workers.countP (fun wk => alive wk.pc) = 0) :
    ∀ wk ∈ workers, wk.pc = WorkerPc.done := by
  intro wk hwk
  have := List.countP_eq_zero.mp h wk hwk
  cases hpc : wk.pc <;> simp [hpc, alive] at this ⊢

theorem countP_unsent_le_alive (workers : List Worker) :
    workers.countP (fun wk => unsentFailure wk.pc) ≤ workers.countP (fun wk => alive wk.pc) := by
  apply List.countP_mono_left
  intro wk _ h
  cases hpc : wk.pc <;> simp [hpc, unsentFailure, alive] at h ⊢

theorem failedMoves_append_logged (trace : List Event) (errors : List Error) :
    failedMoves (trace ++ errors.map Event.logged) = failedMoves trace := by
  unfold failedMoves
  rw [List.countP_append]
  have : (errors.map Event.logged).countP (fun e => match e with
      | Event.moveFileReturn _ (some _) => true
      | _ => false) = 0 := by
    rw [List.countP_eq_zero]
    intro e he
    obtain ⟨x, _, rfl⟩ := List.mem_map.mp he
    simp
  omega

theorem moveFileCalls_append_logged (trace : List Event) (errors : List Error) :
    moveFileCalls (trace ++ errors.map Event.logged) = moveFileCalls trace := by
  unfold moveFileCalls
  rw [List.filterMap_append]
  have : (errors.map Event.logged).filterMap (fun e => match e with
      | Event.moveFileCall file => some file
      | _ => none) = [] := by
    rw [List.filterMap_eq_nil_iff]
    intro e he
    obtain ⟨x, _, rfl⟩ := List.mem_map.mp he
    rfl
  rw [this, List.append_nil]

theorem inv_stepMain {W : Type} (env : Env W) (s s' : State W) (hinv : Inv env s)
    (hstep : stepMain s = some s') : Inv env s' := by
  unfold stepMain at hstep
  obtain ⟨hsem, hsemLe, hwg, hdisp, hcalls, hfail, hres, hrep, hlog, hle⟩ := hinv
  split at hstep
  · -- ranging []
    rename_i hmain
    simp only [Option.some.injEq] at hstep
    subst hstep
    refine ⟨hsem, hsemLe, ?_, ?_, hcalls, ?_, ?_, hrep, hlog, hle⟩
    · simpa [hmain] using hwg
    · simpa [hmain, pending] using hdisp
    · intro _; exact hfail (by simp [hmain])
    · intro r hr; simp at hr
  · -- ranging (f :: rest)
    rename_i f rest hmain
    split at hstep
    · rename_i hdir
      simp only [Option.some.injEq] at hstep
      subst hstep
      refine ⟨hsem, hsemLe, ?_, ?_, hcalls, ?_, ?_, hrep, hlog, hle⟩
      · simpa [hmain] using hwg
      · simpa [hmain, pending, hdir] using hdisp
      · intro _; exact hfail (by simp [hmain])
      · intro r hr; simp at hr
    · rename_i hdir
      simp only [Option.some.injEq] at hstep
      subst hstep
      refine ⟨hsem, hsemLe, ?_, ?_, hcalls, ?_, ?_, hrep, hlog, hle⟩
      · simp only [hmain] at hwg; simp [hwg]
      · simpa [hmain, pending, hdir] using hdisp
      · intro _; exact hfail (by simp [hmain])
      · intro r hr; simp at hr
  · -- acquiring
    rename_i f rest hmain
    split at hstep
    · rename_i hfree
      simp only [Option.some.injEq] at hstep
      subst hstep
      refine ⟨?_, ?_, ?_, ?_, ?_, ?_, ?_, ?_, ?_, ?_⟩
      rotate_right 1
      · simpa [List.countP_append, moved] using hle
      rotate_left 7
      · intro e he
        obtain ⟨f', hf', hc⟩ := hrep e he
        exact ⟨f', by simp only [List.map_append, List.mem_append]; exact Or.inl hf', hc⟩
      · intro e he
        obtain ⟨f', hf', hc⟩ := hlog e he
        exact ⟨f', by simp only [List.map_append, List.mem_append]; exact Or.inl hf', hc⟩
      · simp [hsem, List.countP_append, holdsSlot]
      · simp only; omega
      · simp only [hmain] at hwg; simp [hwg, List.countP_append, alive]
      · simpa [hmain, pending] using hdisp
      · simpa [List.filter_append, called] using hcalls
      · intro _
        have := hfail (by simp [hmain])
        simp [this, List.countP_append, unsentFailure]
      · intro r hr; simp at hr
    · simp at hstep
  · -- waiting
    rename_i hmain
    split at hstep
    · rename_i hzero
      simp only [Option.some.injEq] at hstep
      subst hstep
      simp only [hmain] at hwg
      have halive : s.workers.countP (fun wk => alive wk.pc) = 0 := by omega
      have hunsent : s.workers.countP (fun wk => unsentFailure wk.pc) = 0 := by
        have := countP_unsent_le_alive s.workers
        omega
      refine ⟨hsem, hsemLe, ?_, ?_, ?_, ?_, ?_, ?_, ?_, ?_⟩
      rotate_right 1
      · simpa [failedMoves_append_logged] using hle
      rotate_left 5
      · intro e he; simp at he
      · intro err herr
        simp only [List.mem_append, List.mem_map, Event.logged.injEq, exists_eq_right] at herr
        rcases herr with h | h
        · exact hlog err h
        · exact hrep err h
      · simpa using hwg
      · simpa [hmain, pending] using hdisp
      · simpa [moveFileCalls_append_logged] using hcalls
      · intro h; exact absurd rfl (h _)
      · intro r hr
        simp only [MainPc.returned.injEq] at hr
        subst hr
        have := hfail (by simp [hmain])
        refine ⟨?_, countP_alive_zero _ halive⟩
        simp only [failedMoves_append_logged]
        rw [this, hunsent, Nat.add_zero]
    · simp at hstep
  · simp at hstep

theorem inv_stepWorker {W : Type} (env : Env W) (s s' : State W) (i : Nat) (hinv : Inv env s)
    (hstep : stepWorker env s i = some s') : Inv env s' := by
  unfold stepWorker at hstep
  obtain ⟨hsem, hsemLe, hwg, hdisp, hcalls, hfail, hres, hrep, hlog, hle⟩ := hinv
  split at hstep
  · simp at hstep
  · rename_i wk hget
    obtain ⟨l₁, l₂, hl, hset⟩ := set_decompose s.workers i wk hget
    have hnotret : ∀ r, s.main ≠ MainPc.returned r := by
      intro r hr
      have hdone := (hres r hr).2 wk (by rw [hl]; simp)
      rw [hdone] at hstep
      simp at hstep
    have hfail' := hfail hnotret
    simp only [hset] at hstep
    rw [hl] at hsem hwg hdisp hcalls hfail' hrep hlog hle
    split at hstep
    all_goals
      first
      | (simp only [Option.some.injEq] at hstep)
      | skip
    · -- start
      rename_i hpc
      subst hstep
      refine ⟨?_, hsemLe, ?_, ?_, ?_, ?_, ?_, ?_, ?_, ?_⟩
      rotate_right 1
      · simp only [failedMoves, List.countP_append, List.countP_cons, List.countP_nil,
          moved, hpc] at hle ⊢
        simp at hle ⊢
        omega
      rotate_left 6
      · simpa using hrep
      · simpa using hlog
      · simpa [List.countP_append, List.countP_cons, holdsSlot, hpc] using hsem
      · simpa [List.countP_append, List.countP_cons, alive, hpc] using hwg
      · simpa using hdisp
      · simp only [moveFileCalls, List.filterMap_append] at hcalls ⊢
        simp only [List.filter_append, List.filter_cons, called, hpc, List.map_append,
          List.map_cons] at hcalls ⊢
        simp only [List.filterMap_cons, List.filterMap_nil]
        refine (List.perm_append_singleton _ _).trans ?_
        refine List.Perm.trans ?_ List.perm_middle.symm
        exact List.Perm.cons _ (by simpa using hcalls)
      · intro _
        simpa [failedMoves, List.countP_append, List.countP_cons, unsentFailure, hpc] using hfail'
      · intro r hr; exact absurd hr (hnotret r)
    · -- statFirst
      rename_i hpc
      subst hstep
      refine ⟨?_, hsemLe, ?_, ?_, ?_, ?_, ?_, ?_, ?_, ?_⟩
      rotate_right 1
      · simp only [failedMoves, List.countP_append, List.countP_cons, List.countP_nil,
          moved, hpc] at hle ⊢
        simp at hle ⊢
        omega
      rotate_left 6
      · simpa using hrep
      · simpa using hlog
      · split <;> simpa [List.countP_append, List.countP_cons, holdsSlot, hpc] using hsem
      · split <;> simpa [List.countP_append, List.countP_cons, alive, hpc] using hwg
      · simpa using hdisp
      · split <;>
          simpa [moveFileCalls, List.filterMap_append, List.filter_append, List.filter_cons,
            called, hpc] using hcalls
      · intro _
        split <;>
          simpa [failedMoves, List.countP_append, List.countP_cons, unsentFailure, hpc]
            using hfail'
      · intro r hr; exact absurd hr (hnotret r)
    · -- probing
      rename_i n hpc
      subst hstep
      refine ⟨?_, hsemLe, ?_, ?_, ?_, ?_, ?_, ?_, ?_, ?_⟩
      rotate_right 1
      · simp only [failedMoves, List.countP_append, List.countP_cons, List.countP_nil,
          moved, hpc] at hle ⊢
        simp at hle ⊢
        omega
      rotate_left 6
      · simpa using hrep
      · simpa using hlog
      · split <;> simpa [List.countP_append, List.countP_cons, holdsSlot, hpc] using hsem
      · split <;> simpa [List.countP_append, List.countP_cons, alive, hpc] using hwg
      · simpa using hdisp
      · split <;>
          simpa [moveFileCalls, List.filterMap_append, List.filter_append, List.filter_cons,
            called, hpc] using hcalls
      · intro _
        split <;>
          simpa [failedMoves, List.countP_append, List.countP_cons, unsentFailure, hpc]
            using hfail'
      · intro r hr; exact absurd hr (hnotret r)
    · -- renaming
      rename_i destination hpc
      subst hstep
      refine ⟨?_, hsemLe, ?_, ?_, ?_, ?_, ?_, ?_, ?_, ?_⟩
      rotate_right 1
      · simp only [failedMoves, List.countP_append, List.countP_cons, List.countP_nil,
          moved, hpc] at hle ⊢
        split <;> simp at hle ⊢ <;> omega
      rotate_left 6
      · simpa using hrep
      · simpa using hlog
      · simpa [List.countP_append, List.countP_cons, holdsSlot, hpc] using hsem
      · simpa [List.countP_append, List.countP_cons, alive, hpc] using hwg
      · simpa using hdisp
      · simpa [moveFileCalls, List.filterMap_append, List.filter_append, List.filter_cons,
          called, hpc] using hcalls
      · intro _
        cases hr : (env.os.Rename s.world (filePath env wk.f) destination).1 with
        | none =>
          simpa [failedMoves, List.countP_append, List.countP_cons, unsentFailure, hpc, hr]
            using hfail'
        | some err =>
          simp only [failedMoves, List.countP_append, List.countP_cons, unsentFailure, hpc, hr]
            at hfail' ⊢
          simp only [List.countP_nil] at hfail' ⊢
          simp at hfail' ⊢
          omega
      · intro r hr; exact absurd hr (hnotret r)
    · -- returned none
      rename_i hpc
      subst hstep
      refine ⟨?_, hsemLe, ?_, ?_, ?_, ?_, ?_, ?_, ?_, ?_⟩
      rotate_right 1
      · simp only [failedMoves, List.countP_append, List.countP_cons, List.countP_nil,
          moved, hpc] at hle ⊢
        simp at hle ⊢
        omega
      rotate_left 6
      · simpa using hrep
      · simpa using hlog
      · simpa [List.countP_append, List.countP_cons, holdsSlot, hpc] using hsem
      · simpa [List.countP_append, List.countP_cons, alive, hpc] using hwg
      · simpa using hdisp
      · simpa [List.filter_append, List.filter_cons, called, hpc] using hcalls
      · intro _
        simpa [List.countP_append, List.countP_cons, unsentFailure, hpc] using hfail'
      · intro r hr; exact absurd hr (hnotret r)
    · -- returned (some err)
      rename_i err hpc
      split at hstep
      · simp only [Option.some.injEq] at hstep
        subst hstep
        refine ⟨?_, hsemLe, ?_, ?_, ?_, ?_, ?_, ?_, ?_, ?_⟩
        rotate_right 1
        · simp only [failedMoves, List.countP_append, List.countP_cons, List.countP_nil,
            moved, hpc] at hle ⊢
          simp at hle ⊢
          omega
        rotate_left 6
        · intro e he
          rcases List.mem_append.mp he with h | h
          · simpa using hrep e h
          · simp only [List.mem_singleton] at h
            exact ⟨wk.f, by simp, err, h⟩
        · simpa using hlog
        · simpa [List.countP_append, List.countP_cons, holdsSlot, hpc] using hsem
        · simpa [List.countP_append, List.countP_cons, alive, hpc] using hwg
        · simpa using hdisp
        · simpa [List.filter_append, List.filter_cons, called, hpc] using hcalls
        · intro _
          simp only [List.countP_append, List.countP_cons, unsentFailure, hpc] at hfail' ⊢
          simp at hfail' ⊢
          omega
        · intro r hr; exact absurd hr (hnotret r)
      · simp at hstep
    · -- releasing
      rename_i hpc
      split at hstep
      · rename_i hpos
        simp only [Option.some.injEq] at hstep
        subst hstep
        refine ⟨?_, ?_, ?_, ?_, ?_, ?_, ?_, ?_, ?_, ?_⟩
        rotate_right 1
        · simp only [failedMoves, List.countP_append, List.countP_cons, List.countP_nil,
            moved, hpc] at hle ⊢
          simp at hle ⊢
          omega
        rotate_left 7
        · simpa using hrep
        · simpa using hlog
        · simp only [List.countP_append, List.countP_cons, holdsSlot, hpc] at hsem ⊢
          simp at hsem ⊢
          omega
        · simp only; omega
        · simpa [List.countP_append, List.countP_cons, alive, hpc] using hwg
        · simpa using hdisp
        · simpa [List.filter_append, List.filter_cons, called, hpc] using hcalls
        · intro _
          simpa [List.countP_append, List.countP_cons, unsentFailure, hpc] using hfail'
        · intro r hr; exact absurd hr (hnotret r)
      · simp at hstep
    · -- finishing
      rename_i hpc
      subst hstep
      refine ⟨?_, hsemLe, ?_, ?_, ?_, ?_, ?_, ?_, ?_, ?_⟩
      rotate_right 1
      · simp only [failedMoves, List.countP_append, List.countP_cons, List.countP_nil,
          moved, hpc] at hle ⊢
        simp at hle ⊢
        omega
      rotate_left 6
      · simpa using hrep
      · simpa using hlog
      · simpa [List.countP_append, List.countP_cons, holdsSlot, hpc] using hsem
      · simp only [List.countP_append, List.countP_cons, alive, hpc] at hwg ⊢
        simp at hwg ⊢
        omega
      · simpa using hdisp
      · simpa [List.filter_append, List.filter_cons, called, hpc] using hcalls
      · intro _
        simpa [List.countP_append, List.countP_cons, unsentFailure, hpc] using hfail'
      · intro r hr; exact absurd hr (hnotret r)
    · -- done
      simp at hstep

/-! ## The start of a run -/

theorem createDirectories_ok {W : Type} (os : OS W) (scan : List (String × String)) :
    ∀ (w : W) (t0 : List Event) (w' : W) (t : List Event),
      createDirectories os scan w t0 = (none, w', t) →
      t = t0 ++ scan.map (fun d => Event.mkdirAll d.2 none) := by
  induction scan with
  | nil =>
    intro w t0 w' t h
    simp only [createDirectories, Prod.mk.injEq, true_and] at h
    simp [h.2]
  | cons d scan ih =>
    intro w t0 w' t h
    obtain ⟨key, dir⟩ := d
    simp only [createDirectories] at h
    split at h
    · simp at h
    · rename_i w1 hmk
      have := ih _ _ _ _ h
      simp [this]

theorem createDirectories_failed {W : Type} (os : OS W) (scan : List (String × String)) :
    ∀ (w : W) (t0 : List Event) (err : Error) (w' : W) (t : List Event),
      createDirectories os scan w t0 = (some err, w', t) →
      ∃ pre d post cause, scan = pre ++ d :: post ∧
        err = Error.failedCreateDirectory d.2 cause ∧
        t = t0 ++ pre.map (fun d => Event.mkdirAll d.2 none)
          ++ [Event.mkdirAll d.2 (some cause)] := by
  induction scan with
  | nil =>
    intro w t0 err w' t h
    simp [createDirectories] at h
  | cons d scan ih =>
    intro w t0 err w' t h
    obtain ⟨key, dir⟩ := d
    simp only [createDirectories] at h
    split at h
    · rename_i cause w1 hmk
      simp only [Prod.mk.injEq, Option.some.injEq] at h
      exact ⟨[], (key, dir), scan, cause, rfl, h.1.symm, by simp [h.2.2]⟩
    · rename_i w1 hmk
      obtain ⟨pre, d, post, cause, hscan, herr, ht⟩ := ih _ _ _ _ _ h
      exact ⟨(key, dir) :: pre, d, post, cause, by simp [hscan], herr, by simp [ht]⟩

theorem organizeStart_ok {W : Type} (env : Env W) (w w' : W) (t : List Event)
    (files : List DirEntry)
    (hdirs : createDirectories env.os env.dirScan w [] = (none, w', t))
    (hlist : env.os.ReadDir w' env.cfg.parentDir = Except.ok files) :
    organizeStart env w =
      { world := w', files := files, main := MainPc.ranging files, workers := [],
        semaphore := 0, wg := 0, errors := [],
        trace := env.dirScan.map (fun d => Event.mkdirAll d.2 none)
          ++ [Event.readDir env.cfg.parentDir none] } := by
  have ht := createDirectories_ok env.os env.dirScan w [] w' t hdirs
  simp only [List.nil_append] at ht
  simp [organizeStart, hdirs, hlist, ht]

theorem moveFileCalls_setup (dirs : List (String × String)) (tail : List Event)
    (htail : ∀ e ∈ tail, workerEvent e = false) :
    moveFileCalls (dirs.map (fun d => Event.mkdirAll d.2 none) ++ tail) = [] := by
  unfold moveFileCalls
  rw [List.filterMap_eq_nil_iff]
  intro e he
  rcases List.mem_append.mp he with h | h
  · obtain ⟨d, _, rfl⟩ := List.mem_map.mp h
    rfl
  · have := htail e h
    cases e <;> simp [workerEvent] at this ⊢

theorem failedMoves_setup (dirs : List (String × String)) (tail : List Event)
    (htail : ∀ e ∈ tail, workerEvent e = false) :
    failedMoves (dirs.map (fun d => Event.mkdirAll d.2 none) ++ tail) = 0 := by
  unfold failedMoves
  rw [List.countP_eq_zero]
  intro e he
  rcases List.mem_append.mp he with h | h
  · obtain ⟨d, _, rfl⟩ := List.mem_map.mp h
    simp
  · have := htail e h
    cases e <;> simp [workerEvent] at this ⊢

theorem inv_start {W : Type} (env : Env W) (w w' : W) (t : List Event)
    (files : List DirEntry)
    (hdirs : createDirectories env.os env.dirScan w [] = (none, w', t))
    (hlist : env.os.ReadDir w' env.cfg.parentDir = Except.ok files) :
    Inv env (organizeStart env w) := by
  rw [organizeStart_ok env w w' t files hdirs hlist]
  have htail : ∀ e ∈ [Event.readDir env.cfg.parentDir none], workerEvent e = false := by
    intro e he
    simp only [List.mem_singleton] at he
    subst he
    rfl
  refine ⟨rfl, Nat.zero_le _, rfl, ?_, ?_, ?_, ?_, ?_, ?_, ?_⟩
  · simp [pending]
  · simp only [moveFileCalls_setup _ _ htail]
    exact List.Perm.refl _
  · intro _
    simp only [failedMoves_setup _ _ htail]
    rfl
  · intro r hr; simp at hr
  · intro e he; simp at he
  · intro err herr
    simp at herr
  · simp only [failedMoves_setup _ _ htail]
    exact Nat.zero_le _

theorem inv_run {W : Type} (env : Env W) (schedule : List Choice) :
    ∀ (s s' : State W), Inv env s → run env s schedule = some s' → Inv env s' := by
  induction schedule with
  | nil =>
    intro s s' hinv h
    simp only [run, Option.some.injEq] at h
    exact h ▸ hinv
  | cons c schedule ih =>
    intro s s' hinv h
    simp only [run] at h
    cases hstep : step env s c with
    | none => simp [hstep] at h
    | some s1 =>
      simp only [hstep] at h
      refine ih s1 s' ?_ h
      cases c with
      | main => exact inv_stepMain env s s1 hinv hstep
      | worker i => exact inv_stepWorker env s s1 i hinv hstep

theorem run_of_returned {W : Type} (env : Env W) (s s' : State W) (schedule : List Choice)
    (r : Option Error) (hmain : s.main = MainPc.returned r) (hworkers : s.workers = [])
    (h : run env s schedule = some s') : s' = s := by
  cases schedule with
  | nil =>
    simp only [run, Option.some.injEq] at h
    exact h.symm
  | cons c schedule =>
    simp only [run] at h
    cases c with
    | main => simp [step, stepMain, hmain] at h
    | worker i => simp [step, stepWorker, hworkers] at h

/-- Every reachable state either satisfies the invariant (the start succeeded) or is
the state in which `OrganizeFiles` returned the error of the start. -/
theorem reachable_cases {W : Type} (env : Env W) (w : W) (s : State W)
    (hs : Reachable env w s) :
    Inv env s ∨
      (s = organizeStart env w ∧ s.workers = [] ∧ s.semaphore = 0 ∧
        ∃ err, s.main = MainPc.returned (some err)) := by
  obtain ⟨schedule, hrun⟩ := hs
  cases hdirs : createDirectories env.os env.dirScan w [] with
  | mk err rest =>
    obtain ⟨w', t⟩ := rest
    cases err with
    | some err =>
      right
      have hstart : organizeStart env w =
          { world := w', files := [], main := MainPc.returned (some err), workers := [],
            semaphore := 0, wg := 0, errors := [], trace := t } := by
        simp [organizeStart, hdirs]
      have := run_of_returned env _ s schedule (some err) (by rw [hstart]) (by rw [hstart]) hrun
      subst this
      rw [hstart]
      exact ⟨rfl, rfl, rfl, err, rfl⟩
    | none =>
      cases hlist : env.os.ReadDir w' env.cfg.parentDir with
      | error err =>
        right
        have hstart : organizeStart env w =
            { world := w', files := [],
              main := MainPc.returned (some (Error.failedReadDirectory err)), workers := [],
              semaphore := 0, wg := 0, errors := [],
              trace := t ++ [Event.readDir env.cfg.parentDir (some err)] } := by
          simp [organizeStart, hdirs, hlist]
        have := run_of_returned env _ s schedule _ (by rw [hstart]) (by rw [hstart]) hrun
        subst this
        rw [hstart]
        exact ⟨rfl, rfl, rfl, _, rfl⟩
      | ok files =>
        left
        exact inv_run env schedule _ s (inv_start env w w' t files hdirs hlist) hrun

theorem step_frame {W : Type} (env : Env W) (s s' : State W) (c : Choice)
    (hstep : step env s c = some s') :
    s'.files = s.files ∧
      ∃ added, s'.trace = s.trace ++ added ∧ ∀ e ∈ added, setupEvent e = false := by
  cases c with
  | main =>
    simp only [step, stepMain] at hstep
    split at hstep
    · simp only [Option.some.injEq] at hstep
      subst hstep
      exact ⟨rfl, [], by simp, by simp⟩
    · split at hstep <;>
      · simp only [Option.some.injEq] at hstep
        subst hstep
        exact ⟨rfl, [], by simp, by simp⟩
    · split at hstep
      · simp only [Option.some.injEq] at hstep
        subst hstep
        exact ⟨rfl, [], by simp, by simp⟩
      · simp at hstep
    · split at hstep
      · simp only [Option.some.injEq] at hstep
        subst hstep
        refine ⟨rfl, _, rfl, ?_⟩
        intro e he
        obtain ⟨x, _, rfl⟩ := List.mem_map.mp he
        rfl
      · simp at hstep
    · simp at hstep
  | worker i =>
    simp only [step, stepWorker] at hstep
    split at hstep
    · simp at hstep
    · split at hstep
      all_goals
        first
        | (simp only [Option.some.injEq] at hstep
           subst hstep
           first
           | (refine ⟨rfl, _, rfl, ?_⟩
              simp [setupEvent])
           | (refine ⟨rfl, [], ?_, ?_⟩ <;> simp))
        | (split at hstep
           · simp only [Option.some.injEq] at hstep
             subst hstep
             exact ⟨rfl, [], by simp, by simp⟩
           · simp at hstep)
        | simp at hstep

theorem run_frame {W : Type} (env : Env W) (schedule : List Choice) :
    ∀ (s s' : State W), run env s schedule = some s' →
      s'.files = s.files ∧
        ∃ added, s'.trace = s.trace ++ added ∧ ∀ e ∈ added, setupEvent e = false := by
  induction schedule with
  | nil =>
    intro s s' h
    simp only [run, Option.some.injEq] at h
    subst h
    exact ⟨rfl, [], by simp, by simp⟩
  | cons c schedule ih =>
    intro s s' h
    simp only [run] at h
    cases hstep : step env s c with
    | none => simp [hstep] at h
    | some s1 =>
      simp only [hstep] at h
      obtain ⟨hf1, a1, ht1, ha1⟩ := step_frame env s s1 c hstep
      obtain ⟨hf2, a2, ht2, ha2⟩ := ih s1 s' h
      refine ⟨hf2.trans hf1, a1 ++ a2, by rw [ht2, ht1, List.append_assoc], ?_⟩
      intro e he
      rcases List.mem_append.mp he with h' | h'
      · exact ha1 e h'
      · exact ha2 e h'

theorem listings_append_of_not_setup (trace added : List Event)
    (h : ∀ e ∈ added, setupEvent e = false) :
    listings (trace ++ added) = listings trace := by
  unfold listings
  rw [List.filterMap_append]
  have : added.filterMap (fun e => match e with
      | Event.readDir dir _ => some dir
      | _ => none) = [] := by
    rw [List.filterMap_eq_nil_iff]
    intro e he
    have := h e he
    cases e <;> simp [setupEvent] at this ⊢
  rw [this, List.append_nil]

theorem listings_mkdirs (dirs : List (String × String)) :
    listings (dirs.map (fun d => Event.mkdirAll d.2 none)) = [] := by
  unfold listings
  rw [List.filterMap_eq_nil_iff]
  intro e he
  obtain ⟨d, _, rfl⟩ := List.mem_map.mp he
  rfl

/-! ## The worker pool: the claims -/

/-- C8. In every reachable state of a run at most 5 `moveFile` calls are in flight:
every worker inside `moveFile` holds a slot of the semaphore, the slots held are
exactly the elements in the channel, and the channel never holds more than 5. -/
theorem organize_at_most_five_in_flight {W : Type} (env : Env W) (w : W) (s : State W)
    (hs : Reachable env w s) :
    inFlight s ≤ 5 ∧
    s.semaphore ≤ 5 ∧
    s.semaphore = s.workers.countP (fun wk => holdsSlot wk.pc) ∧
    (∀ wk ∈ s.workers, inMoveFile wk.pc = true → holdsSlot wk.pc = true) := by
  have hsub : ∀ wk : Worker, inMoveFile wk.pc = true → holdsSlot wk.pc = true := by
    intro wk h
    cases hpc : wk.pc <;> simp [hpc, inMoveFile, holdsSlot] at h ⊢
  have hle : inFlight s ≤ s.workers.countP (fun wk => holdsSlot wk.pc) :=
    List.countP_mono_left (fun wk _ h => hsub wk h)
  rcases reachable_cases env w s hs with hinv | ⟨_, hworkers, hsem, _⟩
  · have h1 := hinv.sem
    have h2 : s.semaphore ≤ 5 := hinv.semLe
    exact ⟨by omega, h2, h1, fun wk _ h => hsub wk h⟩
  · refine ⟨?_, by omega, ?_, fun wk _ h => hsub wk h⟩
    · simp [inFlight, hworkers]
    · simp [hworkers, hsem]

/-! ## Runs of a single worker -/

theorem run_append {W : Type} (env : Env W) (a b : List Choice) :
    ∀ (s s1 s2 : State W), run env s a = some s1 → run env s1 b = some s2 →
      run env s (a ++ b) = some s2 := by
  induction a with
  | nil =>
    intro s s1 s2 h1 h2
    simp only [run, Option.some.injEq] at h1
    subst h1
    exact h2
  | cons c a ih =>
    intro s s1 s2 h1 h2
    simp only [run, List.cons_append] at h1 ⊢
    cases hstep : step env s c with
    | none => simp [hstep] at h1
    | some s' =>
      simp only [hstep] at h1 ⊢
      exact ih s' s1 s2 h1 h2

theorem place_workers_get {W : Type} (s : State W) (k : Nat) (wk : Worker) (w : W)
    (t : List Event) (hk : k < s.workers.length) :
    (place s k wk w t).workers.get? k = some wk := by
  simp [place, List.getElem?_set, hk]

/-- The steps of a worker from the probe loop to the rename follow `probe`. -/
theorem worker_probe {W : Type} (env : Env W) (s : State W) (k : Nat) (f : DirEntry)
    (hk : k < s.workers.length) (fuel : Nat) :
    ∀ (i : Int) (t : List Event) (w : W) (destination : String),
      probe env.lib (env.os.Stat w)
          (destinationDirOf env.lib env.cfg (env.extScan (filePath env f)) (filePath env f))
          (TrimSuffix (Base (filePath env f)) (Ext (Base (filePath env f))))
          (Ext (Base (filePath env f))) fuel i = some destination →
      ∃ schedule t',
        run env (place s k { f := f, pc := WorkerPc.probing i } w t) schedule
          = some (place s k { f := f, pc := WorkerPc.renaming destination } w t') := by
  induction fuel with
  | zero => intro i t w destination h; simp [probe] at h
  | succ fuel ih =>
    intro i t w destination h
    simp only [probe] at h
    have hget := place_workers_get s k { f := f, pc := WorkerPc.probing i } w t hk
    by_cases hfree : IsNotExist (env.os.Stat w (env.lib.Join
        (destinationDirOf env.lib env.cfg (env.extScan (filePath env f)) (filePath env f))
        (Sprintf (TrimSuffix (Base (filePath env f)) (Ext (Base (filePath env f)))) i
          (Ext (Base (filePath env f)))))) = true
    · simp only [hfree, if_true, Option.some.injEq] at h
      refine ⟨[Choice.worker k], t ++ [Event.stat destination (env.os.Stat w destination)], ?_⟩
      simp only [run, step, stepWorker, hget]
      rw [h] at hfree
      simp only [candidate, place, h, hfree, if_true, List.set_set]
    · simp only [hfree] at h
      obtain ⟨schedule, t', hrun⟩ := ih (wrapInt (i + 1))
        (t ++ [Event.stat (candidate env.lib env.cfg (env.extScan (filePath env f))
          (filePath env f) i) (env.os.Stat w (candidate env.lib env.cfg
            (env.extScan (filePath env f)) (filePath env f) i))]) w destination h
      refine ⟨Choice.worker k :: schedule, t', ?_⟩
      simp only [run, step, stepWorker, hget]
      have hfree' : IsNotExist (env.os.Stat w (candidate env.lib env.cfg
          (env.extScan (filePath env f)) (filePath env f) i)) = false := by
        simpa [candidate] using hfree
      simp only [place, hfree', List.set_set] at hrun ⊢
      exact hrun

/-- The steps of a worker from the call of `moveFile` to its return follow the
function `moveFile`. -/
theorem worker_moveFile {W : Type} (env : Env W) (s : State W) (k : Nat) (f : DirEntry)
    (hk : k < s.workers.length) (fuel : Nat) (t : List Event) (w w' : W)
    (err : Option Error)
    (h : moveFile env.os env.lib env.cfg (env.extScan (filePath env f)) fuel w (filePath env f)
      = some (err, w')) :
    ∃ schedule t',
      run env (place s k { f := f, pc := WorkerPc.start } w t) schedule
        = some (place s k { f := f, pc := WorkerPc.returned err } w' t') := by
  unfold moveFile at h
  cases hdest : moveFileDestination env.lib env.cfg (env.extScan (filePath env f))
      (env.os.Stat w) fuel (filePath env f) with
  | none => simp [hdest] at h
  | some destination =>
    simp only [hdest, Option.map_some', Option.some.injEq] at h
    have hstart := place_workers_get s k { f := f, pc := WorkerPc.start } w t hk
    have hlast : ∀ t1, run env (place s k { f := f, pc := WorkerPc.renaming destination } w t1)
        [Choice.worker k] = some (place s k { f := f, pc := WorkerPc.returned err } w'
          (t1 ++ [Event.rename (filePath env f) destination err,
            Event.moveFileReturn (filePath env f) err])) := by
      intro t1
      have hget := place_workers_get s k { f := f, pc := WorkerPc.renaming destination } w t1 hk
      simp only [run, step, stepWorker, hget]
      simp only [place, h, List.set_set]
    by_cases hfirst : env.os.Stat w (firstDestination env.lib env.cfg
        (env.extScan (filePath env f)) (filePath env f)) = none
    · rw [moveFileDestination_collision _ _ _ _ _ _ hfirst] at hdest
      obtain ⟨schedule, t', hrun⟩ := worker_probe env s k f hk fuel 1
        (t ++ [Event.moveFileCall (filePath env f)] ++
          [Event.stat (firstDestination env.lib env.cfg (env.extScan (filePath env f))
            (filePath env f)) none]) w destination hdest
      have hhead : run env (place s k { f := f, pc := WorkerPc.start } w t)
          [Choice.worker k, Choice.worker k] =
          some (place s k { f := f, pc := WorkerPc.probing 1 } w
            (t ++ [Event.moveFileCall (filePath env f)] ++
              [Event.stat (firstDestination env.lib env.cfg (env.extScan (filePath env f))
                (filePath env f)) none])) := by
        simp only [run, step, stepWorker, hstart]
        have hget := place_workers_get s k { f := f, pc := WorkerPc.statFirst } w
          (t ++ [Event.moveFileCall (filePath env f)]) hk
        simp only [place, List.set_set] at hget ⊢
        simp only [hget, hfirst, if_true, List.set_set]
      exact ⟨_, _, run_append env _ _ _ _ _ hhead
        (run_append env _ _ _ _ _ hrun (hlast t'))⟩
    · rw [moveFileDestination_free _ _ _ _ _ _ hfirst, Option.some.injEq] at hdest
      have hhead : run env (place s k { f := f, pc := WorkerPc.start } w t)
          [Choice.worker k, Choice.worker k] =
          some (place s k { f := f, pc := WorkerPc.renaming destination } w
            (t ++ [Event.moveFileCall (filePath env f)] ++
              [Event.stat destination (env.os.Stat w destination)])) := by
        simp only [run, step, stepWorker, hstart]
        have hget := place_workers_get s k { f := f, pc := WorkerPc.statFirst } w
          (t ++ [Event.moveFileCall (filePath env f)]) hk
        simp only [place, List.set_set] at hget ⊢
        rw [hdest] at hfirst
        simp only [hget, hdest, hfirst, if_false, List.set_set]
      exact ⟨_, _, run_append env _ _ _ _ _ hhead (hlast _)⟩

/-- The error a worker sends on `errors` for the result `err` of its `moveFile` call. -/
theorem worker_finish {W : Type} (env : Env W) (s : State W) (k : Nat) (f : DirEntry)
    (hk : k < s.workers.length) (w : W) (t : List Event) (err : Option Error)
    (hcap : s.errors.length < s.files.length) (hsem : 0 < s.semaphore) :
    ∃ errors', errors'.length ≤ s.errors.length + 1 ∧
      run env (place s k { f := f, pc := WorkerPc.returned err } w t)
        [Choice.worker k, Choice.worker k, Choice.worker k]
        = some (place { s with errors := errors', semaphore := s.semaphore - 1, wg := s.wg - 1 }
            k { f := f, pc := WorkerPc.done } w t) := by
  cases err with
  | none =>
    refine ⟨s.errors, Nat.le_succ _, ?_⟩
    simp [run, step, stepWorker, place, List.getElem?_set, hk, hsem, List.set_set]
  | some e =>
    refine ⟨s.errors ++ [Error.failedMoveFile f.Name e], by simp, ?_⟩
    simp [run, step, stepWorker, place, List.getElem?_set, hk, hsem, hcap, List.set_set]

/-- When every `moveFile` call ends, a run that is ranging over the listing with no
worker active can be completed. -/
theorem complete_from {W : Type} (env : Env W)
    (hterm : ∀ (w : W) (file : String), ∃ fuel,
      (moveFile env.os env.lib env.cfg (env.extScan file) fuel w file).isSome = true)
    (rest : List DirEntry) :
    ∀ s : State W, s.main = MainPc.ranging rest → s.semaphore = 0 → s.wg = 0 →
      s.errors.length + (rest.filter (fun f => !f.IsDir)).length ≤ s.files.length →
      ∃ schedule s', run env s schedule = some s' ∧ ∃ r, s'.main = MainPc.returned r := by
  induction rest with
  | nil =>
    intro s hmain _ hwg _
    refine ⟨[Choice.main, Choice.main],
      { s with main := MainPc.returned (organizeResult s.errors.length), errors := [],
               trace := s.trace ++ s.errors.map Event.logged }, ?_,
      organizeResult s.errors.length, rfl⟩
    simp [run, step, stepMain, hmain, hwg]
  | cons f rest ih =>
    intro s hmain hsem hwg hcap
    by_cases hdir : f.IsDir = true
    · have hstep : run env s [Choice.main] = some { s with main := MainPc.ranging rest } := by
        simp [run, step, stepMain, hmain, hdir]
      obtain ⟨schedule, s', hrun, hret⟩ := ih { s with main := MainPc.ranging rest } rfl hsem hwg
        (by simpa [hdir] using hcap)
      exact ⟨_, s', run_append env _ _ _ _ _ hstep hrun, hret⟩
    · have hdir' : f.IsDir = false := by simpa using hdir
      have hcap' : s.errors.length + (rest.filter (fun f => !f.IsDir)).length + 1
          ≤ s.files.length := by
        simpa [hdir', Nat.add_assoc] using hcap
      -- the state after the main goroutine has created the worker
      let s2 : State W :=
        { s with wg := 1, semaphore := 1,
                 workers := s.workers ++ [{ f := f, pc := WorkerPc.start }],
                 main := MainPc.ranging rest }
      have hspawn : run env s [Choice.main, Choice.main] = some s2 := by
        simp [run, step, stepMain, hmain, hdir', hsem, hwg, maxWorkers, s2]
      have hk : s.workers.length < s2.workers.length := by simp [s2]
      have hplace : place s2 s.workers.length { f := f, pc := WorkerPc.start } s2.world s2.trace
          = s2 := by
        simp [place, s2]
      obtain ⟨fuel, hfuel⟩ := hterm s2.world (filePath env f)
      obtain ⟨⟨err, w'⟩, hmove⟩ := Option.isSome_iff_exists.mp hfuel
      obtain ⟨sched1, t', hrun1⟩ := worker_moveFile env s2 s.workers.length f hk fuel s2.trace
        s2.world w' err hmove
      rw [hplace] at hrun1
      obtain ⟨errors', hlen, hrun2⟩ := worker_finish env s2 s.workers.length f hk w' t' err
        (by simp only [s2]; omega) (by simp [s2])
      have hlen' : errors'.length ≤ s.errors.length + 1 := hlen
      obtain ⟨sched3, s', hrun3, hret⟩ := ih
        (place { s2 with errors := errors', semaphore := s2.semaphore - 1, wg := s2.wg - 1 }
          s.workers.length { f := f, pc := WorkerPc.done } w' t')
        (by simp [place, s2]) (by simp [place, s2]) (by simp [place, s2])
        (by simp only [place, s2]; omega)
      exact ⟨_, s', run_append env _ _ _ _ _ hspawn
        (run_append env _ _ _ _ _ hrun1 (run_append env _ _ _ _ _ hrun2 hrun3)), hret⟩

/-- When every `moveFile` call ends, `OrganizeFiles` returns: from the start of a
run some schedule leads to a state in which it has returned. -/
theorem exists_complete_run {W : Type} (env : Env W) (w : W)
    (hterm : ∀ (w : W) (file : String), ∃ fuel,
      (moveFile env.os env.lib env.cfg (env.extScan file) fuel w file).isSome = true) :
    ∃ s, Reachable env w s ∧ ∃ r, s.main = MainPc.returned r := by
  cases hdirs : createDirectories env.os env.dirScan w [] with
  | mk err rest =>
    obtain ⟨w', t⟩ := rest
    cases err with
    | some err =>
      refine ⟨organizeStart env w, ⟨[], rfl⟩, some err, ?_⟩
      simp [organizeStart, hdirs]
    | none =>
      cases hlist : env.os.ReadDir w' env.cfg.parentDir with
      | error err =>
        refine ⟨organizeStart env w, ⟨[], rfl⟩, some (Error.failedReadDirectory err), ?_⟩
        simp [organizeStart, hdirs, hlist]
      | ok files =>
        have hstart := organizeStart_ok env w w' t files hdirs hlist
        obtain ⟨schedule, s', hrun, hret⟩ := complete_from env hterm files (organizeStart env w)
          (by rw [hstart]) (by rw [hstart]) (by rw [hstart])
          (by rw [hstart]; simp only [List.length_nil, Nat.zero_add]
              exact List.length_filter_le _ _)
        exact ⟨s', ⟨schedule, hrun⟩, hret⟩

/-- Over a listing of directories only, the main goroutine runs to the end alone. -/
theorem complete_dirs_only {W : Type} (env : Env W) (rest : List DirEntry)
    (hall : ∀ f ∈ rest, f.IsDir = true) :
    ∀ s : State W, s.main = MainPc.ranging rest → s.wg = 0 →
      run env s (List.replicate (rest.length + 2) Choice.main) =
        some { s with main := MainPc.returned (organizeResult s.errors.length), errors := [],
                      trace := s.trace ++ s.errors.map Event.logged } := by
  induction rest with
  | nil =>
    intro s hmain hwg
    simp [List.replicate, run, step, stepMain, hmain, hwg]
  | cons f rest ih =>
    intro s hmain hwg
    have hdir : f.IsDir = true := hall f (List.mem_cons_self _ _)
    have hrest := ih (fun x hx => hall x (List.mem_cons_of_mem _ hx))
      { s with main := MainPc.ranging rest } rfl hwg
    simp only [List.length_cons, List.replicate_succ, run, step, stepMain, hmain, hdir, if_true]
    simpa [List.replicate_succ] using hrest

theorem pre_of_append {α : Type} (pre post front back : List α) (e : α)
    (h : pre ++ e :: post = front ++ back) (he : e ∉ front) : ∃ mid, pre = front ++ mid := by
  rcases List.append_eq_append_iff.mp h with ⟨a', h1, h2⟩ | ⟨c', h1, _⟩
  · cases a' with
    | nil => exact ⟨[], by simp [h1]⟩
    | cons x a' =>
      simp only [List.cons_append, List.cons.injEq] at h2
      exact absurd (by rw [h1, h2.1]; simp) he
  · exact ⟨c', h1⟩

/-- C4. After a successful start, whenever `OrganizeFiles` has returned, its result
is nil exactly when no `moveFile` call failed, and otherwise it is the error
"failed to move n files" with n the number of `moveFile` calls that failed; and
when every `moveFile` call ends, `OrganizeFiles` does return. -/
theorem organize_error_count {W : Type} (env : Env W) (w w' : W) (t : List Event)
    (files : List DirEntry)
    (hdirs : createDirectories env.os env.dirScan w [] = (none, w', t))
    (hlist : env.os.ReadDir w' env.cfg.parentDir = Except.ok files) :
    (∀ s, Reachable env w s → ∀ r, s.main = MainPc.returned r →
      (r = none ↔ failedMoves s.trace = 0) ∧
      (∀ e, r = some e → e = Error.failedToMove (failedMoves s.trace)) ∧
      (r ≠ none ↔ 1 ≤ failedMoves s.trace)) ∧
    ((∀ (w : W) (file : String), ∃ fuel,
        (moveFile env.os env.lib env.cfg (env.extScan file) fuel w file).isSome = true) →
      ∃ s, Reachable env w s ∧ ∃ r, s.main = MainPc.returned r) := by
  refine ⟨?_, fun hterm => exists_complete_run env w hterm⟩
  intro s hs r hr
  obtain ⟨schedule, hrun⟩ := hs
  have hinv := inv_run env schedule _ s (inv_start env w w' t files hdirs hlist) hrun
  have hres := (hinv.result r hr).1
  unfold organizeResult at hres
  by_cases hzero : failedMoves s.trace = 0
  · simp only [hzero, gt_iff_lt, Nat.lt_irrefl, if_false] at hres
    subst hres
    simp [hzero]
  · have hpos : failedMoves s.trace > 0 := Nat.pos_of_ne_zero hzero
    simp only [hpos, if_true] at hres
    subst hres
    refine ⟨?_, ?_, ?_⟩
    · simp [hzero]
    · intro e he
      simpa using he.symm
    · simp only [ne_eq, reduceCtorEq, not_false_eq_true, true_iff]
      omega

/-- C6. No event other than a directory creation (no listing, no existence check,
no rename) occurs before every directory of the configuration has been created
successfully. If creating a directory fails, `OrganizeFiles` returns that error
(the failure of `MkdirAll`, wrapped) and does nothing but the directory creations
made up to then. If the source
directory is empty, every configured directory is created and `OrganizeFiles`
returns nil. -/
theorem organize_directories_first {W : Type} (env : Env W) (w : W)
    (hscan : env.dirScan.Perm env.cfg.directories) :
    (∀ s, Reachable env w s → ∀ pre e post, s.trace = pre ++ e :: post →
      (∀ dir err, e ≠ Event.mkdirAll dir err) →
      (∀ d ∈ env.cfg.directories, Event.mkdirAll d.2 none ∈ pre) ∧
      ∃ mid, pre = env.dirScan.map (fun d => Event.mkdirAll d.2 none) ++ mid) ∧
    (∀ err w' t, createDirectories env.os env.dirScan w [] = (some err, w', t) →
      ∀ s, Reachable env w s →
        s.main = MainPc.returned (some err) ∧ s.world = w' ∧ s.workers = [] ∧
        (∀ e ∈ s.trace, ∃ dir r, e = Event.mkdirAll dir r) ∧
        ∃ d ∈ env.dirScan, ∃ cause, err = Error.failedCreateDirectory d.2 cause ∧
          Event.mkdirAll d.2 (some cause) ∈ s.trace) ∧
    (∀ w' t files, createDirectories env.os env.dirScan w [] = (none, w', t) →
      env.os.ReadDir w' env.cfg.parentDir = Except.ok files →
      (∀ f ∈ files, f.IsDir = true) →
      ∃ s, Reachable env w s ∧ s.main = MainPc.returned none ∧ s.world = w' ∧
        s.trace = env.dirScan.map (fun d => Event.mkdirAll d.2 none)
          ++ [Event.readDir env.cfg.parentDir none]) := by
  refine ⟨?_, ?_, ?_⟩
  · intro s hs pre e post htrace hnot
    obtain ⟨schedule, hrun⟩ := hs
    have hkey : ∃ mid, pre = env.dirScan.map (fun d => Event.mkdirAll d.2 none) ++ mid := by
      cases hdirs : createDirectories env.os env.dirScan w [] with
      | mk err rest =>
        obtain ⟨w', t⟩ := rest
        cases err with
        | some err =>
          have hstart : organizeStart env w =
              { world := w', files := [], main := MainPc.returned (some err), workers := [],
                semaphore := 0, wg := 0, errors := [], trace := t } := by
            simp [organizeStart, hdirs]
          have hs' := run_of_returned env _ s schedule (some err) (by rw [hstart])
            (by rw [hstart]) hrun
          obtain ⟨pre', d, post', cause, _, _, ht⟩ :=
            createDirectories_failed env.os env.dirScan w [] err w' t hdirs
          have hmem : e ∈ s.trace := by rw [htrace]; simp
          rw [hs', hstart] at hmem
          simp only [ht, List.nil_append, List.mem_append, List.mem_map, List.mem_singleton]
            at hmem
          rcases hmem with ⟨x, _, hx⟩ | hx
          · exact absurd hx.symm (hnot _ _)
          · exact absurd hx (hnot _ _)
        | none =>
          have ht := createDirectories_ok env.os env.dirScan w [] w' t hdirs
          simp only [List.nil_append] at ht
          obtain ⟨_, added, hadd, _⟩ := run_frame env schedule _ s hrun
          have hfront : ∃ back, s.trace =
              env.dirScan.map (fun d => Event.mkdirAll d.2 none) ++ back := by
            cases hlist : env.os.ReadDir w' env.cfg.parentDir with
            | error err =>
              refine ⟨[Event.readDir env.cfg.parentDir (some err)] ++ added, ?_⟩
              rw [hadd]
              simp [organizeStart, hdirs, hlist, ht]
            | ok files =>
              refine ⟨[Event.readDir env.cfg.parentDir none] ++ added, ?_⟩
              rw [hadd]
              simp [organizeStart, hdirs, hlist, ht]
          obtain ⟨back, hback⟩ := hfront
          refine pre_of_append pre post _ back e (htrace.symm.trans hback) ?_
          intro hmem
          obtain ⟨x, _, hx⟩ := List.mem_map.mp hmem
          exact absurd hx.symm (hnot _ _)
    refine ⟨?_, hkey⟩
    intro d hd
    obtain ⟨mid, hmid⟩ := hkey
    rw [hmid]
    exact List.mem_append_left _ (List.mem_map.mpr ⟨d, hscan.symm.subset hd, rfl⟩)
  · intro err w' t hdirs s hs
    obtain ⟨schedule, hrun⟩ := hs
    have hstart : organizeStart env w =
        { world := w', files := [], main := MainPc.returned (some err), workers := [],
          semaphore := 0, wg := 0, errors := [], trace := t } := by
      simp [organizeStart, hdirs]
    have hs' := run_of_returned env _ s schedule (some err) (by rw [hstart])
      (by rw [hstart]) hrun
    obtain ⟨pre', d, post', cause, hsplit, herr, ht⟩ :=
      createDirectories_failed env.os env.dirScan w [] err w' t hdirs
    rw [hs', hstart]
    refine ⟨rfl, rfl, rfl, ?_, d, by rw [hsplit]; simp, cause, herr, by simp [ht]⟩
    intro e he
    simp only [ht, List.nil_append, List.mem_append, List.mem_map, List.mem_singleton] at he
    rcases he with ⟨x, _, hx⟩ | hx
    · exact ⟨_, _, hx.symm⟩
    · exact ⟨_, _, hx⟩
  · intro w' t files hdirs hlist hall
    have hstart := organizeStart_ok env w w' t files hdirs hlist
    have hrun := complete_dirs_only env files hall (organizeStart env w) (by rw [hstart])
      (by rw [hstart])
    refine ⟨_, ⟨_, hrun⟩, ?_, ?_, ?_⟩
    · rw [hstart]; rfl
    · rw [hstart]
    · rw [hstart]; simp

/-- C5. After a successful start with listing `files`, the `moveFile` calls made so
far are calls on distinct non-directory entries of the listing, with the path
`parentDir/name`; once `OrganizeFiles` has returned there has been exactly one call
for each non-directory entry. The source directory is listed once and nothing
else is listed, and every logged failure is about a non-directory entry. When
every `moveFile` call ends, `OrganizeFiles` does return. -/
theorem organize_moves_each_file_once {W : Type} (env : Env W) (w w' : W) (t : List Event)
    (files : List DirEntry)
    (hdirs : createDirectories env.os env.dirScan w [] = (none, w', t))
    (hlist : env.os.ReadDir w' env.cfg.parentDir = Except.ok files)
    (s : State W) (hs : Reachable env w s) :
    (moveFileCalls s.trace).Subperm
      ((files.filter (fun f => !f.IsDir)).map (filePath env)) ∧
    (∀ r, s.main = MainPc.returned r →
      (moveFileCalls s.trace).Perm
        ((files.filter (fun f => !f.IsDir)).map (filePath env))) ∧
    listings s.trace = [env.cfg.parentDir] ∧
    (∀ err, Event.logged err ∈ s.trace →
      ∃ f ∈ files, f.IsDir = false ∧ ∃ cause, err = Error.failedMoveFile f.Name cause) ∧
    ((∀ (w : W) (file : String), ∃ fuel,
        (moveFile env.os env.lib env.cfg (env.extScan file) fuel w file).isSome = true) →
      ∃ s', Reachable env w s' ∧ ∃ r, s'.main = MainPc.returned r) := by
  obtain ⟨schedule, hrun⟩ := hs
  have hinv := inv_run env schedule _ s (inv_start env w w' t files hdirs hlist) hrun
  obtain ⟨hfiles, added, htrace, hadded⟩ := run_frame env schedule _ s hrun
  rw [organizeStart_ok env w w' t files hdirs hlist] at hfiles htrace
  simp only at hfiles htrace
  have hdisp := hinv.dispatch
  rw [hfiles] at hdisp
  have hmap : (files.filter (fun f => !f.IsDir)).map (filePath env) =
      s.workers.map (fun wk => filePath env wk.f) ++ (pending s.main).map (filePath env) := by
    rw [hdisp, List.map_append, List.map_map]
    rfl
  refine ⟨?_, ?_, ?_, ?_, fun hterm => exists_complete_run env w hterm⟩
  · rw [hmap]
    refine hinv.calls.subperm.trans (List.Sublist.subperm ?_)
    exact ((List.filter_sublist s.workers).map _).trans (List.sublist_append_left _ _)
  · intro r hr
    have hdone := (hinv.result r hr).2
    have hall : s.workers.filter (fun wk => called wk.pc) = s.workers := by
      rw [List.filter_eq_self]
      intro wk hwk
      rw [hdone wk hwk]
      rfl
    rw [hmap, hr]
    simpa [hall, pending] using hinv.calls
  · rw [htrace, listings_append_of_not_setup _ _ hadded]
    unfold listings
    rw [List.filterMap_append]
    have := listings_mkdirs env.dirScan
    unfold listings at this
    rw [this]
    rfl
  · intro err herr
    obtain ⟨f, hf, cause, hcause⟩ := hinv.logs err herr
    have hmem : f ∈ files.filter (fun f => !f.IsDir) := by
      rw [hdisp]
      exact List.mem_append_left _ hf
    rw [List.mem_filter] at hmem
    exact ⟨f, hmem.1, by simpa using hmem.2, cause, hcause⟩

/-! ## The worker pool: concrete runs -/

theorem mixedFinal_reachable : Reachable simEnv mixedWorld mixedFinal :=
  ⟨mixedSchedule, by rfl⟩

theorem crowdedState_reachable : Reachable simEnv crowdedWorld crowdedState :=
  ⟨crowdedSchedule, by rfl⟩

theorem quietEnv_moveFile_ends (w : List DirEntry) (file : String) :
    ∃ fuel, (moveFile quietEnv.os quietEnv.lib quietEnv.cfg (quietEnv.extScan file) fuel w
      file).isSome = true :=
  ⟨0, by simp [moveFile, moveFileDestination, quietEnv, quietOS]⟩

/-- Witness of C8: with seven files, five calls are in flight and the main goroutine
is blocked at the semaphore. -/
theorem organize_at_most_five_in_flight_witness :
    inFlight crowdedState = 5 ∧ step simEnv crowdedState Choice.main = none ∧
    (inFlight crowdedState ≤ 5 ∧
      crowdedState.semaphore ≤ 5 ∧
      crowdedState.semaphore = crowdedState.workers.countP (fun wk => holdsSlot wk.pc) ∧
      (∀ wk ∈ crowdedState.workers, inMoveFile wk.pc = true → holdsSlot wk.pc = true)) :=
  ⟨by decide, by rfl,
    organize_at_most_five_in_flight simEnv crowdedWorld crowdedState crowdedState_reachable⟩

/-- Witness of C5: three files and a subdirectory; one call per file, in the order
the workers were scheduled. -/
theorem organize_moves_each_file_once_witness :
    moveFileCalls mixedFinal.trace = ["/dl/a.txt", "/dl/b.png", "/dl/c.txt"] ∧
    (moveFileCalls mixedFinal.trace).Perm
      (([{ Name := "a.txt", IsDir := false }, { Name := "sub", IsDir := true },
         { Name := "b.png", IsDir := false }, { Name := "c.txt", IsDir := false },
         { Name := "Images", IsDir := true }, { Name := "Documents", IsDir := true },
         { Name := "Others", IsDir := true }].filter (fun f => !f.IsDir)).map
        (filePath simEnv)) ∧
    listings mixedFinal.trace = ["/dl"] :=
  have h := organize_moves_each_file_once simEnv mixedWorld
    (createDirectories simOS sampleConfig.directories mixedWorld []).2.1
    (createDirectories simOS sampleConfig.directories mixedWorld []).2.2
    [{ Name := "a.txt", IsDir := false }, { Name := "sub", IsDir := true },
     { Name := "b.png", IsDir := false }, { Name := "c.txt", IsDir := false },
     { Name := "Images", IsDir := true }, { Name := "Documents", IsDir := true },
     { Name := "Others", IsDir := true }]
    (by rfl) (by rfl) mixedFinal mixedFinal_reachable
  ⟨by decide, h.2.1 _ (by rfl), h.2.2.1⟩

/-- Witness of C4: of three files exactly one fails and the reported count is 1;
and over `quietOS`, where every `moveFile` call ends, the run returns. -/
theorem organize_error_count_witness :
    mixedFinal.main = MainPc.returned (some (Error.failedToMove 1)) ∧
    Error.failedToMove 1 = Error.failedToMove (failedMoves mixedFinal.trace) ∧
    ∃ s, Reachable quietEnv quietWorld s ∧ ∃ r, s.main = MainPc.returned r :=
  ⟨by rfl,
   ((organize_error_count simEnv mixedWorld
      (createDirectories simOS sampleConfig.directories mixedWorld []).2.1
      (createDirectories simOS sampleConfig.directories mixedWorld []).2.2
      [{ Name := "a.txt", IsDir := false }, { Name := "sub", IsDir := true },
       { Name := "b.png", IsDir := false }, { Name := "c.txt", IsDir := false },
       { Name := "Images", IsDir := true }, { Name := "Documents", IsDir := true },
       { Name := "Others", IsDir := true }]
      (by rfl) (by rfl)).1 mixedFinal mixedFinal_reachable
        (some (Error.failedToMove 1)) (by rfl)).2.1 _ rfl,
   (organize_error_count quietEnv quietWorld quietWorld
      (createDirectories quietOS sampleConfig.directories quietWorld []).2.2 quietWorld
      (by rfl) (by rfl)).2
      quietEnv_moveFile_ends⟩

/-- Witness of C6: from an empty source directory the three directories are created,
the listing holds directories only, and the run returns nil. -/
theorem organize_directories_first_witness :
    ∃ s, Reachable simEnv emptyWorld s ∧ s.main = MainPc.returned none ∧
      s.world = { entries := [("/dl/Images", true), ("/dl/Documents", true),
        ("/dl/Others", true)], denied := [] } ∧
      s.trace = [Event.mkdirAll "/dl/Images" none, Event.mkdirAll "/dl/Documents" none,
        Event.mkdirAll "/dl/Others" none, Event.readDir "/dl" none] :=
  (organize_directories_first simEnv emptyWorld (List.Perm.refl _)).2.2
    { entries := [("/dl/Images", true), ("/dl/Documents", true), ("/dl/Others", true)],
      denied := [] }
    [Event.mkdirAll "/dl/Images" none, Event.mkdirAll "/dl/Documents" none,
      Event.mkdirAll "/dl/Others" none]
    [{ Name := "Images", IsDir := true }, { Name := "Documents", IsDir := true },
     { Name := "Others", IsDir := true }]
    (by rfl) (by rfl) (by decide)

/-! ## What a run leaves in the source directory -/

theorem failedMoves_append (t added : List Event) :
    failedMoves (t ++ added) = failedMoves t + failedMoves added := by
  simp [failedMoves, List.countP_append]

theorem moving_stepMain {W : Type} (env : Env W) (s s' : State W) (hm : Moving env s)
    (hstep : stepMain s = some s') : Moving env s' := by
  unfold stepMain at hstep
  obtain ⟨hdests, hleft⟩ := hm
  split at hstep
  · rename_i hmain
    simp only [Option.some.injEq] at hstep
    subst hstep
    exact ⟨hdests, by simpa [hmain, pending] using hleft⟩
  · rename_i f rest hmain
    split at hstep
    · rename_i hdir
      simp only [Option.some.injEq] at hstep
      subst hstep
      exact ⟨hdests, by simpa [hmain, pending, hdir] using hleft⟩
    · rename_i hdir
      simp only [Option.some.injEq] at hstep
      subst hstep
      exact ⟨hdests, by simpa [hmain, pending, hdir] using hleft⟩
  · rename_i f rest hmain
    split at hstep
    · simp only [Option.some.injEq] at hstep
      subst hstep
      refine ⟨?_, ?_⟩
      · intro wk hwk dst hpc
        simp only [List.mem_append, List.mem_singleton] at hwk
        rcases hwk with h | h
        · exact hdests wk h dst hpc
        · subst h
          simp at hpc
      · intro hzero x hx
        have := hleft hzero x hx
        simp only [hmain, pending, List.map_cons, List.mem_cons] at this
        simp only [pending, List.filter_append, List.map_append, List.mem_append]
        rcases this with (h | h) | h
        · right; right
          simp [moved, h]
        · left; exact h
        · right; left; exact h
    · simp at hstep
  · rename_i hmain
    split at hstep
    · simp only [Option.some.injEq] at hstep
      subst hstep
      refine ⟨hdests, ?_⟩
      intro hzero x hx
      simp only [failedMoves_append_logged] at hzero
      simpa [hmain, pending] using hleft hzero x hx
    · simp at hstep
  · simp at hstep

theorem moving_stepWorker {W : Type} (env : Env W) (s s' : State W) (i : Nat)
    (hrename : ∀ (w : W) (f : DirEntry) (dst : String) (w' : W),
      isDestination env (filePath env f) dst →
      env.os.Rename w (filePath env f) dst = (none, w') →
      ∀ x ∈ sourceFiles env w', x ∈ sourceFiles env w ∧ x ≠ f.Name)
    (hm : Moving env s) (hstep : stepWorker env s i = some s') : Moving env s' := by
  unfold stepWorker at hstep
  obtain ⟨hdests, hleft⟩ := hm
  split at hstep
  · simp at hstep
  · rename_i wk hget
    obtain ⟨l₁, l₂, hl, hset⟩ := set_decompose s.workers i wk hget
    simp only [hset] at hstep
    rw [hl] at hdests hleft
    have hothers : ∀ pc', ∀ wk' ∈ l₁ ++ { wk with pc := pc' } :: l₂, ∀ dst,
        wk'.pc = WorkerPc.renaming dst →
        (wk' = { wk with pc := pc' } ∨ isDestination env (filePath env wk'.f) dst) := by
      intro pc' wk' hwk' dst hpc'
      simp only [List.mem_append, List.mem_cons] at hwk'
      rcases hwk' with h | h | h
      · exact Or.inr (hdests wk' (by simp [h]) dst hpc')
      · exact Or.inl h
      · exact Or.inr (hdests wk' (by simp [h]) dst hpc')
    split at hstep
    all_goals
      first
      | (simp only [Option.some.injEq] at hstep)
      | skip
    · -- start
      rename_i hpc
      subst hstep
      refine ⟨?_, ?_⟩
      · intro wk' hwk' dst hpc'
        rcases hothers _ wk' hwk' dst hpc' with h | h
        · subst h; simp at hpc'
        · exact h
      · intro hzero x hx
        rw [failedMoves_append] at hzero
        simpa [List.filter_append, List.filter_cons, moved, hpc] using hleft (by omega) x hx
    · -- statFirst
      rename_i hpc
      subst hstep
      refine ⟨?_, ?_⟩
      · intro wk' hwk' dst hpc'
        rcases hothers _ wk' hwk' dst hpc' with h | h
        · subst h
          simp only at hpc'
          split at hpc'
          · simp at hpc'
          · simp only [WorkerPc.renaming.injEq] at hpc'
            exact Or.inl hpc'.symm
        · exact h
      · intro hzero x hx
        rw [failedMoves_append] at hzero
        have := hleft (by omega) x hx
        split <;> simpa [List.filter_append, List.filter_cons, moved, hpc] using this
    · -- probing
      rename_i n hpc
      subst hstep
      refine ⟨?_, ?_⟩
      · intro wk' hwk' dst hpc'
        rcases hothers _ wk' hwk' dst hpc' with h | h
        · subst h
          simp only at hpc'
          split at hpc'
          · simp only [WorkerPc.renaming.injEq] at hpc'
            exact Or.inr ⟨n, hpc'.symm⟩
          · simp at hpc'
        · exact h
      · intro hzero x hx
        rw [failedMoves_append] at hzero
        have := hleft (by omega) x hx
        split <;> simpa [List.filter_append, List.filter_cons, moved, hpc] using this
    · -- renaming
      rename_i destination hpc
      subst hstep
      refine ⟨?_, ?_⟩
      · intro wk' hwk' dst hpc'
        rcases hothers _ wk' hwk' dst hpc' with h | h
        · subst h; simp at hpc'
        · exact h
      · intro hzero x hx
        simp only at hzero hx
        have hdest : isDestination env (filePath env wk.f) destination :=
          hdests wk (by simp) destination hpc
        cases hr : env.os.Rename s.world (filePath env wk.f) destination with
        | mk err w' =>
          rw [hr] at hzero hx
          cases err with
          | some e => simp [failedMoves_append, failedMoves] at hzero
          | none =>
            rw [failedMoves_append] at hzero
            obtain ⟨hold, hne⟩ := hrename s.world wk.f destination w' hdest hr x hx
            have := hleft (by omega) x hold
            simp only [List.filter_append, List.filter_cons, moved, hpc, List.map_append,
              List.mem_append] at this ⊢
            simp only [Bool.not_false, if_true, List.map_cons, List.mem_cons] at this
            simp only [Bool.not_true, Bool.false_eq_true, if_false]
            rcases this with h | h | h | h
            · exact Or.inl h
            · exact Or.inr (Or.inl h)
            · exact absurd h hne
            · exact Or.inr (Or.inr h)
    · -- returned none
      rename_i hpc
      subst hstep
      refine ⟨?_, ?_⟩
      · intro wk' hwk' dst hpc'
        rcases hothers _ wk' hwk' dst hpc' with h | h
        · subst h; simp at hpc'
        · exact h
      · intro hzero x hx
        simpa [List.filter_append, List.filter_cons, moved, hpc] using hleft hzero x hx
    · -- returned (some err)
      rename_i err hpc
      split at hstep
      · simp only [Option.some.injEq] at hstep
        subst hstep
        refine ⟨?_, ?_⟩
        · intro wk' hwk' dst hpc'
          rcases hothers _ wk' hwk' dst hpc' with h | h
          · subst h; simp at hpc'
          · exact h
        · intro hzero x hx
          simpa [List.filter_append, List.filter_cons, moved, hpc] using hleft hzero x hx
      · simp at hstep
    · -- releasing
      rename_i hpc
      split at hstep
      · simp only [Option.some.injEq] at hstep
        subst hstep
        refine ⟨?_, ?_⟩
        · intro wk' hwk' dst hpc'
          rcases hothers _ wk' hwk' dst hpc' with h | h
          · subst h; simp at hpc'
          · exact h
        · intro hzero x hx
          simpa [List.filter_append, List.filter_cons, moved, hpc] using hleft hzero x hx
      · simp at hstep
    · -- finishing
      rename_i hpc
      subst hstep
      refine ⟨?_, ?_⟩
      · intro wk' hwk' dst hpc'
        rcases hothers _ wk' hwk' dst hpc' with h | h
        · subst h; simp at hpc'
        · exact h
      · intro hzero x hx
        simpa [List.filter_append, List.filter_cons, moved, hpc] using hleft hzero x hx
    · -- done
      simp at hstep

theorem moving_run {W : Type} (env : Env W)
    (hrename : ∀ (w : W) (f : DirEntry) (dst : String) (w' : W),
      isDestination env (filePath env f) dst →
      env.os.Rename w (filePath env f) dst = (none, w') →
      ∀ x ∈ sourceFiles env w', x ∈ sourceFiles env w ∧ x ≠ f.Name)
    (schedule : List Choice) :
    ∀ (s s' : State W), Moving env s → run env s schedule = some s' → Moving env s' := by
  induction schedule with
  | nil =>
    intro s s' hm h
    simp only [run, Option.some.injEq] at h
    exact h ▸ hm
  | cons c schedule ih =>
    intro s s' hm h
    simp only [run] at h
    cases hstep : step env s c with
    | none => simp [hstep] at h
    | some s1 =>
      simp only [hstep] at h
      refine ih s1 s' ?_ h
      cases c with
      | main => exact moving_stepMain env s s1 hm hstep
      | worker i => exact moving_stepWorker env s s1 i hrename hm hstep

theorem createDirectories_sourceFiles {W : Type} (env : Env W)
    (hmkdir : ∀ (w : W) (d : String) (w' : W), env.os.MkdirAll w d = (none, w') →
      ∀ x ∈ sourceFiles env w', x ∈ sourceFiles env w)
    (scan : List (String × String)) :
    ∀ (w : W) (t0 : List Event) (w' : W) (t : List Event),
      createDirectories env.os scan w t0 = (none, w', t) →
      ∀ x ∈ sourceFiles env w', x ∈ sourceFiles env w := by
  induction scan with
  | nil =>
    intro w t0 w' t h x hx
    simp only [createDirectories, Prod.mk.injEq, true_and] at h
    rw [h.1]
    exact hx
  | cons d scan ih =>
    intro w t0 w' t h x hx
    obtain ⟨key, dir⟩ := d
    simp only [createDirectories] at h
    split at h
    · simp at h
    · rename_i w1 hmk
      exact hmkdir w dir w1 hmk x (ih w1 _ w' t h x hx)

theorem moving_start {W : Type} (env : Env W) (w w' : W) (t : List Event)
    (files : List DirEntry)
    (hdirs : createDirectories env.os env.dirScan w [] = (none, w', t))
    (hlist : env.os.ReadDir w' env.cfg.parentDir = Except.ok files) :
    Moving env (organizeStart env w) := by
  rw [organizeStart_ok env w w' t files hdirs hlist]
  refine ⟨?_, ?_⟩
  · intro wk hwk
    simp at hwk
  · intro _ x hx
    left
    simpa [sourceFiles, hlist, pending] using hx

/-- C7, as stated, fails: when the only file of the source directory cannot be
renamed, the first run returns "failed to move 1 files", the file is still there,
and the second run calls `moveFile` on it again and fails again. -/
theorem organize_rerun_counterexample :
    Reachable simEnv deniedWorld deniedFinal ∧
    deniedFinal.main = MainPc.returned (some (Error.failedToMove 1)) ∧
    Reachable simEnv deniedFinal.world deniedAgain ∧
    moveFileCalls deniedAgain.trace = ["/dl/c.txt"] ∧
    deniedAgain.main = MainPc.returned (some (Error.failedToMove 1)) :=
  ⟨⟨deniedSchedule, by rfl⟩, by rfl, ⟨deniedSchedule, by rfl⟩, by decide, by rfl⟩

/-- C7, amended. Let a successful rename of a source file to a destination computed
by `moveFile` take that file out of the listing of the source directory and add
no file to it, and let a successful `MkdirAll` add no file to it. If the first
run returned nil, and directory creation and listing succeed in the second run,
started in the world the first run ended in, then the second listing holds
directories only, the second run makes no `moveFile` call in any of its states,
returns nil whenever it returns, and does return. -/
theorem organize_rerun_moves_nothing {W : Type} (env : Env W) (w : W)
    (hmkdir : ∀ (w : W) (d : String) (w' : W), env.os.MkdirAll w d = (none, w') →
      ∀ x ∈ sourceFiles env w', x ∈ sourceFiles env w)
    (hrename : ∀ (w : W) (f : DirEntry) (dst : String) (w' : W),
      isDestination env (filePath env f) dst →
      env.os.Rename w (filePath env f) dst = (none, w') →
      ∀ x ∈ sourceFiles env w', x ∈ sourceFiles env w ∧ x ≠ f.Name)
    (s1 : State W) (hs1 : Reachable env w s1) (hr1 : s1.main = MainPc.returned none)
    (w2 : W) (t2 : List Event) (files2 : List DirEntry)
    (hdirs2 : createDirectories env.os env.dirScan s1.world [] = (none, w2, t2))
    (hlist2 : env.os.ReadDir w2 env.cfg.parentDir = Except.ok files2) :
    (∀ f ∈ files2, f.IsDir = true) ∧
    (∀ s2, Reachable env s1.world s2 →
      moveFileCalls s2.trace = [] ∧ ∀ r, s2.main = MainPc.returned r → r = none) ∧
    (∃ s2, Reachable env s1.world s2 ∧ s2.main = MainPc.returned none) := by
  -- the first run started successfully, since it returned nil
  obtain ⟨schedule1, hrun1⟩ := hs1
  have hfirst : Inv env s1 ∧ Moving env s1 := by
    cases hdirs : createDirectories env.os env.dirScan w [] with
    | mk err rest =>
      obtain ⟨w', t⟩ := rest
      cases err with
      | some err =>
        have hstart : organizeStart env w =
            { world := w', files := [], main := MainPc.returned (some err), workers := [],
              semaphore := 0, wg := 0, errors := [], trace := t } := by
          simp [organizeStart, hdirs]
        have hs' := run_of_returned env _ s1 schedule1 (some err) (by rw [hstart])
          (by rw [hstart]) hrun1
        rw [hs', hstart] at hr1
        simp at hr1
      | none =>
        cases hlist : env.os.ReadDir w' env.cfg.parentDir with
        | error err =>
          have hstart : organizeStart env w =
              { world := w', files := [],
                main := MainPc.returned (some (Error.failedReadDirectory err)), workers := [],
                semaphore := 0, wg := 0, errors := [],
                trace := t ++ [Event.readDir env.cfg.parentDir (some err)] } := by
            simp [organizeStart, hdirs, hlist]
          have hs' := run_of_returned env _ s1 schedule1 _ (by rw [hstart])
            (by rw [hstart]) hrun1
          rw [hs', hstart] at hr1
          simp at hr1
        | ok files =>
          exact ⟨inv_run env schedule1 _ s1 (inv_start env w w' t files hdirs hlist) hrun1,
            moving_run env hrename schedule1 _ s1 (moving_start env w w' t files hdirs hlist)
              hrun1⟩
  obtain ⟨hinv1, hmov1⟩ := hfirst
  -- no file is left in the source directory
  have hempty : ∀ x, x ∉ sourceFiles env s1.world := by
    intro x hx
    obtain ⟨hres, hdone⟩ := hinv1.result none hr1
    have hzero : failedMoves s1.trace = 0 := by
      unfold organizeResult at hres
      by_contra hne
      have hpos : failedMoves s1.trace > 0 := Nat.pos_of_ne_zero hne
      simp [hpos] at hres
    have hnone : s1.workers.filter (fun wk => !moved wk.pc) = [] := by
      rw [List.filter_eq_nil_iff]
      intro wk hwk
      rw [hdone wk hwk]
      simp [moved]
    have := hmov1.left hzero x hx
    simp [hr1, pending, hnone] at this
  have hempty2 : (files2.filter (fun f => !f.IsDir)) = [] := by
    have hsub := createDirectories_sourceFiles env hmkdir env.dirScan s1.world [] w2 t2 hdirs2
    have hnil : sourceFiles env w2 = [] := by
      rw [List.eq_nil_iff_forall_not_mem]
      intro x hx
      exact hempty x (hsub x hx)
    simpa [sourceFiles, hlist2] using hnil
  have hall : ∀ f ∈ files2, f.IsDir = true := by
    intro f hf
    by_contra hdir
    have : f ∈ files2.filter (fun f => !f.IsDir) := by
      rw [List.mem_filter]
      exact ⟨hf, by simpa using hdir⟩
    rw [hempty2] at this
    simp at this
  have hstart2 := organizeStart_ok env s1.world w2 t2 files2 hdirs2 hlist2
  refine ⟨hall, ?_, ?_⟩
  · intro s2 hs2
    obtain ⟨schedule2, hrun2⟩ := hs2
    have hinv2 := inv_run env schedule2 _ s2
      (inv_start env s1.world w2 t2 files2 hdirs2 hlist2) hrun2
    obtain ⟨hfiles, _⟩ := run_frame env schedule2 _ s2 hrun2
    rw [hstart2] at hfiles
    simp only at hfiles
    have hdisp := hinv2.dispatch
    rw [hfiles, hempty2] at hdisp
    have hworkers : s2.workers = [] := by
      have := congrArg List.length hdisp
      simp only [List.length_nil, List.length_append, List.length_map] at this
      exact List.eq_nil_of_length_eq_zero (by omega)
    refine ⟨?_, ?_⟩
    · have := hinv2.calls
      rw [hworkers] at this
      simpa using this
    · intro r hr
      have hres := (hinv2.result r hr).1
      have hle := hinv2.failedLe
      rw [hworkers] at hle
      simp only [List.countP_nil, Nat.le_zero_eq] at hle
      rw [hres, hle]
      rfl
  · have hrun := complete_dirs_only env files2 hall (organizeStart env s1.world)
      (by rw [hstart2]) (by rw [hstart2])
    refine ⟨_, ⟨_, hrun⟩, ?_⟩
    rw [hstart2]
    rfl

theorem quietEnv_mkdir (w : List DirEntry) (d : String) (w' : List DirEntry)
    (h : quietEnv.os.MkdirAll w d = (none, w')) :
    ∀ x ∈ sourceFiles quietEnv w', x ∈ sourceFiles quietEnv w := by
  simp only [quietEnv, quietOS, Prod.mk.injEq, true_and] at h
  subst h
  exact fun x hx => hx

theorem quietEnv_rename (w : List DirEntry) (f : DirEntry) (dst : String)
    (w' : List DirEntry) (_hdst : isDestination quietEnv (filePath quietEnv f) dst)
    (h : quietEnv.os.Rename w (filePath quietEnv f) dst = (none, w')) :
    ∀ x ∈ sourceFiles quietEnv w', x ∈ sourceFiles quietEnv w ∧ x ≠ f.Name := by
  simp only [quietEnv, quietOS, Prod.mk.injEq, true_and] at h
  subst h
  intro x hx
  simp only [sourceFiles, quietEnv, quietOS, List.mem_map, List.mem_filter] at hx ⊢
  obtain ⟨e, ⟨⟨he, hne⟩, hdir⟩, hname⟩ := hx
  refine ⟨⟨e, ⟨he, hdir⟩, hname⟩, ?_⟩
  intro hx
  subst hname
  simp [filePath, hx] at hne

/-- Witness of C7 (amended): over `quietOS` the first run moves a.txt and b.png and
returns nil; the second run lists the subdirectory only. -/
theorem organize_rerun_moves_nothing_witness :
    quietFinal.world = [{ Name := "sub", IsDir := true }] ∧
    (∀ f ∈ [({ Name := "sub", IsDir := true } : DirEntry)], f.IsDir = true) ∧
    (∀ s2, Reachable quietEnv quietFinal.world s2 →
      moveFileCalls s2.trace = [] ∧ ∀ r, s2.main = MainPc.returned r → r = none) ∧
    (∃ s2, Reachable quietEnv quietFinal.world s2 ∧ s2.main = MainPc.returned none) :=
  ⟨by rfl,
   organize_rerun_moves_nothing quietEnv quietWorld quietEnv_mkdir quietEnv_rename
    quietFinal ⟨quietSchedule, by rfl⟩ (by rfl)
    [{ Name := "sub", IsDir := true }]
    (createDirectories quietOS sampleConfig.directories quietFinal.world []).2.2
    [{ Name := "sub", IsDir := true }] (by rfl) (by rfl)⟩

end DownloadManager
